import Mathlib

set_option maxHeartbeats 1000000
set_option maxRecDepth 4000

/-!
Shallow embedding of the `qcfg` Go package (file `qcfg.go`).

Lines of a config file are modelled as `List Char` (the Go code works on
`[]byte`; all inputs of interest are ASCII).  Go maps are modelled as
association lists whose `insert` replaces the value of an existing key in
place and appends fresh keys at the end; this preserves key uniqueness and
makes iteration order deterministic (Go map iteration order is
unspecified, and every claim about map contents is order-independent).

Process aborts (`panic`) are modelled as `Except.error`; the filesystem is
a function `Bytes → Option Bytes` from (expanded) file names to file
contents; home-directory expansion (`os/user`) is a `home : Bytes`
parameter.  `bufio.Reader.ReadBytes('\n')` is modelled by `readChunks`,
which yields the exact sequence of reads the Go loop performs (each chunk
keeps its trailing newline; the final chunk, returned together with the
EOF error, has none).

Includes make the two Go loader functions (`loadCfgFile`, `loadBlock`)
recursive through the filesystem, so the embedded loader `loadStream`
carries a fuel parameter that decreases on every processed chunk; running
out of fuel yields an artificial `Except.error "out of fuel"` that the Go
code (unbounded recursion) does not have.  Theorems either supply enough
fuel explicitly or quantify over a sufficient amount.
-/

abbrev Bytes := List Char

/-- Render a modelled byte string as a Lean string (used in error messages,
mirroring the Go `panic` message construction). -/
def bstr (b : Bytes) : String := String.mk b

/-- The cutset of Go `bytes.TrimLeft(line, " \t")` used by `cleanLine`. -/
def isBlank (c : Char) : Bool := c == ' ' || c == '\t'

/-- Whitespace as recognised by Go `bytes.TrimSpace`. -/
def goIsSpace (c : Char) : Bool :=
  c == ' ' || c == '\t' || c == '\n' || c == '\r' || c == '\x0B' || c == '\x0C'

/-- Embedding of `cleanLine` (qcfg.go:62): truncate at the first `#`,
then trim leading and trailing blanks (spaces and tabs). -/
def cleanLine (l : Bytes) : Bytes :=
  let l := l.takeWhile (fun c => c ≠ '#')
  ((l.dropWhile isBlank).reverse.dropWhile isBlank).reverse

/-- Model of Go `bytes.TrimSpace`. -/
def goTrimSpace (l : Bytes) : Bytes :=
  ((l.dropWhile goIsSpace).reverse.dropWhile goIsSpace).reverse

/-- Model of Go `bytes.ToLower` (ASCII-adequate). -/
def goToLower (l : Bytes) : Bytes := l.map Char.toLower

/-- Model of Go `bytes.SplitN(l, sep, 2)` for a one-byte separator:
the part before the first occurrence, and — when the separator occurs —
`some` of the part after it. -/
def goSplitN2 : Bytes → Char → Bytes × Option Bytes
  | [], _ => ([], none)
  | c :: t, sep =>
    if c = sep then ([], some t)
    else
      let r := goSplitN2 t sep
      (c :: r.1, r.2)

/-- Model of Go `bytes.Split(l, sep)` for a one-byte separator. -/
def goSplitOn (sep : Char) : Bytes → List Bytes
  | [] => [[]]
  | c :: t =>
    match goSplitOn sep t with
    | [] => [[c]]
    | h :: r => if c = sep then [] :: h :: r else (c :: h) :: r

/-- Index (0-based) of the first occurrence of `pat` in a list, if any. -/
def goIndexAux (pat : Bytes) : Bytes → Option Nat
  | [] => if pat.isEmpty then some 0 else none
  | c :: t =>
    if pat.isPrefixOf (c :: t) then some 0
    else (goIndexAux pat t).map (· + 1)

/-- Model of Go `bytes.Index(l, pat)`: first index, or `-1` when absent. -/
def goIndex (l pat : Bytes) : Int :=
  match goIndexAux pat l with
  | some n => (n : Int)
  | none => -1

/-- Whether `pat` occurs as a contiguous subsequence of `l`. -/
def hasSeq (pat l : Bytes) : Bool := (goIndexAux pat l).isSome

/-- Association-list lookup, modelling Go map indexing `m[k]`. -/
def alFind? {α : Type} : List (Bytes × α) → Bytes → Option α
  | [], _ => none
  | (k, v) :: t, key => if k = key then some v else alFind? t key

/-- Association-list update, modelling Go map assignment `m[k] = v`:
replace in place when the key exists, append otherwise. -/
def alInsert {α : Type} : List (Bytes × α) → Bytes → α → List (Bytes × α)
  | [], key, val => [(key, val)]
  | (k, v) :: t, key, val =>
    if k = key then (key, val) :: t else (k, v) :: alInsert t key val

/-- Embedding of `cfgRow` (qcfg.go:47): a named set of column→value pairs. -/
structure CfgRow where
  name : Bytes
  cols : List (Bytes × Bytes)
  deriving DecidableEq, Repr

/-- Embedding of `CfgBlock` (qcfg.go:53): block name, source file name,
rows, and child blocks. -/
inductive CfgBlock : Type where
  | mk (name : Bytes) (fname : Bytes)
       (rows : List (Bytes × CfgRow)) (tbls : List (Bytes × CfgBlock)) : CfgBlock

def CfgBlock.name : CfgBlock → Bytes
  | .mk n _ _ _ => n

def CfgBlock.fname : CfgBlock → Bytes
  | .mk _ f _ _ => f

def CfgBlock.rows : CfgBlock → List (Bytes × CfgRow)
  | .mk _ _ r _ => r

def CfgBlock.tbls : CfgBlock → List (Bytes × CfgBlock)
  | .mk _ _ _ t => t

def CfgBlock.setRows : CfgBlock → List (Bytes × CfgRow) → CfgBlock
  | .mk n f _ t, r => .mk n f r t

def CfgBlock.setTbls : CfgBlock → List (Bytes × CfgBlock) → CfgBlock
  | .mk n f r _, t => .mk n f r t

/-- Embedding of `getFilename` (qcfg.go:73). -/
def getFilename (line : Bytes) : Bytes :=
  match goSplitN2 line ' ' with
  | (p0, some p1) =>
    if goToLower p0 = "%include".data then
      let p1 := cleanLine p1
      match p1 with
      | '"' :: t => t.dropLast
      | _ => p1
    else []
  | (_, none) => []

/-- Embedding of `lineIsInclude` (qcfg.go:87): length above 8 and the first
8 bytes equal to `%include` (case-sensitive, unlike `getFilename`). -/
def lineIsInclude (line : Bytes) : Bool :=
  decide (8 < line.length) && decide (line.take 8 = "%include".data)

/-- Embedding of `lineIsBlockEnd` (qcfg.go:94): nonempty and starting with
a closing brace. -/
def lineIsBlockEnd (line : Bytes) : Bool :=
  decide (line.head? = some '\x7d')

/-- Embedding of `lineIsBlockNew` (qcfg.go:101): the part before the first
space lowercases to `%block` and a second part exists. -/
def lineIsBlockNew (line : Bytes) : Bool :=
  match goSplitN2 line ' ' with
  | (p0, some _) => decide (goToLower p0 = "%block".data)
  | (_, none) => false

/-- Embedding of `getBlockname` (qcfg.go:112): the cleaned text after the
first space (empty when the line is not a block header). -/
def getBlockname (line : Bytes) : Bytes :=
  match goSplitN2 line ' ' with
  | (p0, some p1) =>
    if goToLower p0 = "%block".data then cleanLine p1 else []
  | (_, none) => []

/-- One step of the column loop of `loadRow` (qcfg.go:172-183): split a
semicolon segment at the first `=`, trim both sides, skip the pair when
the key is empty or there is no `=`. -/
def colStep (acc : List (Bytes × Bytes)) (seg : Bytes) : List (Bytes × Bytes) :=
  let kv := goSplitN2 seg '='
  let k := cleanLine kv.1
  if k.length < 1 then acc
  else
    match kv.2 with
    | none => acc
    | some v => alInsert acc k (cleanLine v)

/-- Shared tail of `loadRow` (qcfg.go:160-184): fetch or (re)create the row
named `rowName`, then fold the parsed column pairs into its column map.
When the row exists and `add` is false the row is replaced by a fresh one
before the pairs are added. -/
def finishRow (cfg : CfgBlock) (rowName rowData : Bytes) (add : Bool) :
    CfgBlock × Bytes :=
  let row : CfgRow :=
    match alFind? cfg.rows rowName with
    | some r => if add then r else ⟨rowName, []⟩
    | none => ⟨rowName, []⟩
  let cols := (goSplitOn ';' rowData).foldl colStep row.cols
  (cfg.setRows (alInsert cfg.rows rowName ⟨row.name, cols⟩), rowName)

/-- Embedding of `loadRow` (qcfg.go:124): classify a cleaned line using the
first indices of `::` and `+=`, or treat the whole line as continuation
data when a pending row name is supplied.  Returns the updated block and
the row name to remember (empty for the diagnostic fall-through, which Go
renders as a `nil` return). -/
def loadRow (cfg : CfgBlock) (line0 : Bytes) (rowName0 : Bytes) :
    CfgBlock × Bytes :=
  let line := cleanLine line0
  if rowName0.length < 1 then
    let nnNew := goIndex line "::".data
    let nnAdd := goIndex line "+=".data
    if 0 ≤ nnNew ∧ 0 < nnAdd then
      if nnAdd < nnNew then
        -- Go: nnNew > nnAdd, i.e. `+=` occurs first; `add` stays false
        finishRow cfg (cleanLine (line.take nnAdd.toNat))
          (cleanLine (line.drop (nnAdd.toNat + 2))) false
      else
        -- `::` occurs first (or coincides); `add` is set true
        finishRow cfg (cleanLine (line.take nnNew.toNat))
          (cleanLine (line.drop (nnNew.toNat + 2))) true
    else if 0 < nnAdd then
      finishRow cfg (cleanLine (line.take nnAdd.toNat))
        (cleanLine (line.drop (nnAdd.toNat + 2))) true
    else if 0 < nnNew then
      finishRow cfg (cleanLine (line.take nnNew.toNat))
        (cleanLine (line.drop (nnNew.toNat + 2))) false
    else
      (cfg, [])
  else
    finishRow cfg rowName0 line true

/-- Embedding of `expandUser` (qcfg.go:699): replace a leading `~/` with
the home directory. -/
def expandUser (home : Bytes) (fname : Bytes) : Bytes :=
  if fname.length < 2 then fname
  else if fname.take 2 ≠ "~/".data then fname
  else home ++ '/' :: fname.drop 2

/-- Model of the successive `ReadBytes('\n')` calls of the loader loops:
worker with an accumulator for the current chunk. -/
def readChunksAux (acc : Bytes) : Bytes → List Bytes
  | [] => [acc.reverse]
  | c :: t =>
    if c = '\n' then (acc.reverse ++ ['\n']) :: readChunksAux [] t
    else readChunksAux (c :: acc) t

/-- The exact sequence of buffers the Go read loop sees: every chunk keeps
its trailing newline; the last chunk (delivered together with the EOF
error, and still processed) has none and may be empty. -/
def readChunks (content : Bytes) : List Bytes := readChunksAux [] content

/-- Embedding of the loader loops `loadCfgFile` (qcfg.go:234) and
`loadBlock` (qcfg.go:188), which classify lines identically and differ
only in diagnostics.  Processes chunks from the current reader; `%include`
recursively loads another file into the same block, `%block` loads the
following chunks into a fresh child block and resumes with the chunks that
remain after the child's closing brace.  Returns the updated block and the
unconsumed chunks (what the Go functions leave in the shared reader). -/
def loadStream (fs : Bytes → Option Bytes) (home : Bytes) :
    Nat → Bytes → CfgBlock → List Bytes → Bytes →
    Except String (CfgBlock × List Bytes)
  | 0, _, _, _, _ => .error "out of fuel"
  | _ + 1, _, cfg, [], _ => .ok (cfg, [])
  | fuel + 1, fname, cfg, chunk :: rest, prevRow =>
    if chunk.length < 1 then loadStream fs home fuel fname cfg rest prevRow
    else
      let buf := cleanLine chunk.dropLast
      if buf.length < 1 then loadStream fs home fuel fname cfg rest prevRow
      else if lineIsInclude buf then
        let fname2 := expandUser home (getFilename (goTrimSpace buf))
        match fs fname2 with
        | none => .error ("could not open file " ++ bstr fname2)
        | some content =>
          match loadStream fs home fuel fname2 cfg (readChunks content) [] with
          | .error e => .error e
          | .ok (cfg2, _) => loadStream fs home fuel fname cfg2 rest prevRow
      else if lineIsBlockEnd buf then
        .ok (cfg, rest)
      else if lineIsBlockNew buf then
        let name2 := getBlockname buf
        match loadStream fs home fuel fname (.mk name2 fname [] []) rest [] with
        | .error e => .error e
        | .ok (child, rest2) =>
          loadStream fs home fuel fname (cfg.setTbls (alInsert cfg.tbls name2 child))
            rest2 prevRow
      else if 2 < buf.length ∧ buf.take 2 = "+=".data then
        let r := loadRow cfg (buf.drop 2) prevRow
        loadStream fs home fuel fname r.1 rest r.2
      else if buf.head? = some '\x7b' then
        loadStream fs home fuel fname cfg rest prevRow
      else
        let r := loadRow cfg buf []
        loadStream fs home fuel fname r.1 rest r.2

/-- The process-wide registry `cfgs` (qcfg.go:60). -/
structure CfgState where
  cfgs : List (Bytes × CfgBlock)

/-- Embedding of `NewCfg` (qcfg.go:284): return the cached tree when the
name is registered; otherwise register a fresh tree, open the file (a
missing file panics, modelled as `Except.error`), load it and return it. -/
def NewCfg (fs : Bytes → Option Bytes) (home : Bytes) (fuel : Nat)
    (st : CfgState) (name fname : Bytes) :
    Except String (CfgBlock × CfgState) :=
  let fname := expandUser home fname
  match alFind? st.cfgs name with
  | some cfg => .ok (cfg, st)
  | none =>
    let cfg : CfgBlock := .mk name fname [] []
    match fs fname with
    | none => .error ("could not open file " ++ bstr fname)
    | some content =>
      match loadStream fs home fuel fname cfg (readChunks content) [] with
      | .error e => .error e
      | .ok (cfg2, _) => .ok (cfg2, ⟨alInsert st.cfgs name cfg2⟩)

/-- Embedding of `NewCfgMem` (qcfg.go:311): panic when the name is already
registered, otherwise register and return an empty tree. -/
def NewCfgMem (st : CfgState) (name : Bytes) :
    Except String (CfgBlock × CfgState) :=
  match alFind? st.cfgs name with
  | some _ => .error ("cfg: NewCfgMem or NewCfg already called for cfg " ++ bstr name)
  | none =>
    let cfg : CfgBlock := .mk name [] [] []
    .ok (cfg, ⟨alInsert st.cfgs name cfg⟩)

/-- Embedding of `EditEntry` (qcfg.go:330): create the child block and row
when absent (the fresh child block's `name` field is the parent's name, as
in the Go code), then set the column. -/
def CfgBlock.EditEntry (cfg : CfgBlock) (tbl row col value : Bytes) : CfgBlock :=
  let t : CfgBlock :=
    match alFind? cfg.tbls tbl with
    | some t => t
    | none => .mk cfg.name [] [] []
  let r : CfgRow :=
    match alFind? t.rows row with
    | some r => r
    | none => ⟨row, []⟩
  let r2 : CfgRow := ⟨r.name, alInsert r.cols col value⟩
  let t2 := t.setRows (alInsert t.rows row r2)
  cfg.setTbls (alInsert cfg.tbls tbl t2)

/-- Text written for one column by `CfgWrite` (qcfg.go:357). -/
def colText (p : Bytes × Bytes) : Bytes := p.1 ++ '=' :: p.2 ++ "; ".data

/-- Text written for one row by `CfgWrite` (qcfg.go:354-360). -/
def rowText (p : Bytes × CfgRow) : Bytes :=
  '\t' :: p.1 ++ "\t:: ".data ++ (p.2.cols.map colText).flatten ++ "\n".data

/-- Text written for one child block by `CfgWrite` (qcfg.go:352-362). -/
def blockText (p : Bytes × CfgBlock) : Bytes :=
  "\n%block ".data ++ p.1 ++ "\n\x7b\n".data
    ++ (p.2.rows.map rowText).flatten ++ "\n\x7d\n".data

/-- Embedding of `CfgWrite` (qcfg.go:345): the file content produced by
writing the tree (only direct child blocks are emitted, not the root's own
rows and not grandchildren). -/
def CfgWrite (cfg : CfgBlock) : Bytes := (cfg.tbls.map blockText).flatten

/-- Embedding of `Str` (qcfg.go:368). -/
def CfgBlock.Str (cfg : CfgBlock) (tbl row col d : Bytes) : Bytes :=
  match alFind? cfg.tbls tbl with
  | none => d
  | some t =>
    match alFind? t.rows row with
    | none => d
    | some r =>
      match alFind? r.cols col with
      | none => d
      | some c => c

/-- Embedding of `SelfStr` (qcfg.go:390). -/
def CfgBlock.SelfStr (cfg : CfgBlock) (row col d : Bytes) : Bytes :=
  match alFind? cfg.rows row with
  | none => d
  | some r =>
    match alFind? r.cols col with
    | none => d
    | some c => c

/-- Embedding of `GetBlock` (qcfg.go:607): descend child-by-child. -/
def CfgBlock.GetBlock (cfg : CfgBlock) : List Bytes → Option CfgBlock
  | [] => some cfg
  | t :: rest =>
    match alFind? cfg.tbls t with
    | none => none
    | some c => c.GetBlock rest

/-- Embedding of `NestedStr` (qcfg.go:407): empty path means `SelfStr`,
one segment means `Str`, otherwise descend to the parent of the last
segment and apply `Str` there. -/
def CfgBlock.NestedStr (cfg : CfgBlock) (tbls : List Bytes) (row col d : Bytes) :
    Bytes :=
  match tbls with
  | [] => cfg.SelfStr row col d
  | [t] => cfg.Str t row col d
  | l =>
    match cfg.GetBlock l.dropLast with
    | none => d
    | some c =>
      match l.getLast? with
      | none => d
      | some tl => c.Str tl row col d

/-- Digit-string value (the digits consumed by a `%d` scan). -/
def digitsToNat (l : Bytes) : Nat :=
  l.foldl (fun a c => a * 10 + (c.toNat - 48)) 0

/-- Whether a `%d` scan of `s` fails (leaving the default in place):
after leading white space and an optional sign there is no digit, or the
signed digit run overflows a 64-bit `int` (`fmt` hands the token to
`strconv.ParseInt(tok, 10, 64)`, whose range error aborts the scan before
the argument is assigned). -/
def intScanFails (s : Bytes) : Bool :=
  let s := s.dropWhile goIsSpace
  match s with
  | '-' :: t => (t.takeWhile Char.isDigit).isEmpty
      || decide (9223372036854775808 < digitsToNat (t.takeWhile Char.isDigit))
  | '+' :: t => (t.takeWhile Char.isDigit).isEmpty
      || decide (9223372036854775807 < digitsToNat (t.takeWhile Char.isDigit))
  | _ => (s.takeWhile Char.isDigit).isEmpty
      || decide (9223372036854775807 < digitsToNat (s.takeWhile Char.isDigit))

/-- Value of a successful `%d` scan: optional sign, then the leading run
of digits (trailing non-digit text is left unconsumed, as in Go). -/
def intScanValue (s : Bytes) : ℤ :=
  let s := s.dropWhile goIsSpace
  match s with
  | '-' :: t => -(digitsToNat (t.takeWhile Char.isDigit) : ℤ)
  | '+' :: t => (digitsToNat (t.takeWhile Char.isDigit) : ℤ)
  | _ => (digitsToNat (s.takeWhile Char.isDigit) : ℤ)

/-- Model of `fmt.Sscanf(s, "%d", &ival)` with `ival` previously set to
`d` (qcfg.go:439-441): on any failure the scan leaves `ival` — and hence
the result — at `d`. -/
def goScanInt (s : Bytes) (d : ℤ) : ℤ :=
  if intScanFails s then d else intScanValue s

/-- Embedding of `Int` (qcfg.go:424): dotted lookup, then a `%d` scan into
a variable holding the default.  Values are unbounded integers (the Go
`int` width does not matter for the claims below). -/
def CfgBlock.Int (cfg : CfgBlock) (tbl row col : Bytes) (d : ℤ) : ℤ :=
  match alFind? cfg.tbls tbl with
  | none => d
  | some t =>
    match alFind? t.rows row with
    | none => d
    | some r =>
      match alFind? r.cols col with
      | none => d
      | some c => goScanInt c d

/-- Embedding of `GetBlocks` (qcfg.go:596): the child block names. -/
def CfgBlock.GetBlocks (cfg : CfgBlock) : List Bytes := cfg.tbls.map Prod.fst

/-- Embedding of `GetRows` (qcfg.go:620). -/
def CfgBlock.GetRows (cfg : CfgBlock) (tbl : Bytes) : List Bytes :=
  match alFind? cfg.tbls tbl with
  | some t => t.rows.map Prod.fst
  | none => []

/-- Embedding of `GetCols` (qcfg.go:634). -/
def CfgBlock.GetCols (cfg : CfgBlock) (tbl row : Bytes) : List Bytes :=
  match alFind? cfg.tbls tbl with
  | some t =>
    match alFind? t.rows row with
    | some r => r.cols.map Prod.fst
    | none => []
  | none => []

/-- Embedding of `RowExists` (qcfg.go:653). -/
def CfgBlock.RowExists (cfg : CfgBlock) (block row : Bytes) : Bool :=
  match alFind? cfg.tbls block with
  | none => false
  | some t => (alFind? t.rows row).isSome

/-- Embedding of `Split` (qcfg.go:666): comma-split of `Str`. -/
def CfgBlock.Split (cfg : CfgBlock) (tbl row col d : Bytes) : List Bytes :=
  goSplitOn ',' (cfg.Str tbl row col d)

/-- Embedding of `Expandlist` (qcfg.go:673): union the comma-split values
at `(block, row2, k)` over all keys `k` comma-split from
`(block, row, col)`; the set is a Go `map[string]bool`, modelled as an
association list, and the result is its key list. -/
def CfgBlock.Expandlist (cfg : CfgBlock) (block row col row2 : Bytes) :
    List Bytes :=
  if block.length ≤ 0 ∨ row.length ≤ 0 ∨ col.length ≤ 0 ∨ row2.length ≤ 0 then []
  else
    let partsmap : List (Bytes × Bool) :=
      (cfg.Split block row col []).foldl
        (fun m boxtype =>
          (cfg.Split block row2 boxtype []).foldl
            (fun m2 box => alInsert m2 box true) m)
        []
    partsmap.map Prod.fst

/-- A sequence of `EditEntry` calls applied in order. -/
def applyEdits (cfg : CfgBlock) : List (Bytes × Bytes × Bytes × Bytes) → CfgBlock
  | [] => cfg
  | (t, r, c, v) :: rest => applyEdits (cfg.EditEntry t r c v) rest

/-- Dotted column lookup used to state lookup-miss hypotheses: the column
text at `cfg.tbls[tbl].rows[row].cols[col]`, if every step resolves. -/
def colOf (cfg : CfgBlock) (tbl row col : Bytes) : Option Bytes :=
  match alFind? cfg.tbls tbl with
  | none => none
  | some t =>
    match alFind? t.rows row with
    | none => none
    | some r => alFind? r.cols col

/-- The empty filesystem (no file opens successfully). -/
def fsEmpty : Bytes → Option Bytes := fun _ => none

/-- A fresh root block, as `NewCfg` allocates before loading. -/
def demoRoot : CfgBlock := .mk "n".data "f".data [] []

/-- A token with no `#` and no newline: it survives comment stripping and
stays on one written line. -/
def noMeta (l : Bytes) : Bool := !(l.contains '#') && !(l.contains '\n')

/-- A token that does not start or end with a blank, so trimming leaves
it unchanged. -/
def trimmedTok (l : Bytes) : Bool :=
  (match l.head? with | none => true | some c => !isBlank c) &&
  (match l.getLast? with | none => true | some c => !isBlank c)

/-- A block name that `CfgWrite` followed by the loader reproduces. -/
def blockNameOk (b : Bytes) : Bool := !b.isEmpty && noMeta b && trimmedTok b

/-- A row name that `CfgWrite` followed by the loader reproduces: clean,
without the operator tokens, and not starting like a directive, brace or
block end. -/
def rowNameOk (r : Bytes) : Bool :=
  !r.isEmpty && noMeta r && trimmedTok r &&
  !(hasSeq "::".data r) && !(hasSeq "+=".data r) &&
  (match r.head? with
   | some c => !(c == '%' || c == '\x7b' || c == '\x7d')
   | none => true)

/-- A column name that round-trips: clean and free of `=` and `;`. -/
def colNameOk (c : Bytes) : Bool :=
  !c.isEmpty && noMeta c && trimmedTok c && !(c.contains '=') && !(c.contains ';')

/-- A column value that round-trips: clean and free of `;` (it may be
empty and may contain `=`). -/
def valOk (v : Bytes) : Bool := noMeta v && trimmedTok v && !(v.contains ';')

/-- An `EditEntry` argument tuple (block, row, column, value) whose four
components round-trip through write and load. -/
def editOk (e : Bytes × Bytes × Bytes × Bytes) : Bool :=
  blockNameOk e.1 && rowNameOk e.2.1 && colNameOk e.2.2.1 && valOk e.2.2.2

/-- A row entry as a clean `EditEntry` sequence builds it: keyed by its
own clean name, with at least one column, unique clean column names and
clean values. -/
def RowClean (q : Bytes × CfgRow) : Prop :=
  q.2.name = q.1 ∧ rowNameOk q.1 = true ∧ q.2.cols ≠ [] ∧
    (q.2.cols.map Prod.fst).Nodup ∧
    ∀ w ∈ q.2.cols, colNameOk w.1 = true ∧ valOk w.2 = true

/-- A child block entry as a clean `EditEntry` sequence builds it: a clean
key, no grandchildren, rows with unique names, each clean. -/
def BlockClean (p : Bytes × CfgBlock) : Prop :=
  blockNameOk p.1 = true ∧ p.2.tbls = [] ∧
    (p.2.rows.map Prod.fst).Nodup ∧ ∀ q ∈ p.2.rows, RowClean q

/-- Structural description of a tree built by `NewCfgMem` plus clean
`EditEntry` calls: no rows at the root, one level of child blocks with
unique clean names, rows keyed by their own clean names with at least one
column, unique clean column names, clean values. -/
def TreeClean (t : CfgBlock) : Prop :=
  t.rows = [] ∧ (t.tbls.map Prod.fst).Nodup ∧ ∀ p ∈ t.tbls, BlockClean p

/-- The row entry the loader reconstructs from a written row: same key,
row name equal to the key, same columns. -/
def loadedRow (q : Bytes × CfgRow) : Bytes × CfgRow := (q.1, ⟨q.1, q.2.cols⟩)

/-- The child block the loader reconstructs from a written block: same
key, block name equal to the key, file name of the loaded file, same rows,
no grandchildren. -/
def loadedBlock (fname : Bytes) (p : Bytes × CfgBlock) : Bytes × CfgBlock :=
  (p.1, .mk p.1 fname (p.2.rows.map loadedRow) [])

/-- Fuel consumed by loading one written block: its five framing chunks
plus one chunk per row. -/
def blockFuel (p : Bytes × CfgBlock) : Nat := p.2.rows.length + 5

/-- Fuel sufficient to load the output of `CfgWrite`. -/
def writeFuel (t : CfgBlock) : Nat := (t.tbls.map blockFuel).sum + 2

/-- Concrete two-line input for the ambiguity rule, `+=` before `::`. -/
def c2content1 : Bytes := "a :: x=5;\na += q :: c=1;\n".data

/-- Concrete two-line input for the ambiguity rule, `::` before `+=`. -/
def c2content2 : Bytes := "a :: x=5;\na :: b += c=1;\n".data

/-- A block containing a row and a continuation line. -/
def c6content1 : Bytes := "%block B\n\x7b\nname :: a=1;\n+= b=2;\n\x7d\n".data

/-- The same block followed by a plain re-definition of the row. -/
def c6content2 : Bytes :=
  "%block B\n\x7b\nname :: a=1;\n+= b=2;\nname :: c=3;\n\x7d\n".data

/-- A `%block` header whose next line is a row line, not a brace. -/
def c7content : Bytes := "%block B\nr :: a=1;\n\x7b\n\x7d\n".data

/-- A one-line file with no trailing newline. -/
def c8content : Bytes := "a :: k=v".data

/-- A programmatically built tree whose single value contains `;`. -/
def c1tree : CfgBlock :=
  (CfgBlock.mk "n".data [] [] []).EditEntry "b".data "r".data "c".data "x;y".data

/-- A filesystem holding exactly the written form of `c1tree`. -/
def c1fs : Bytes → Option Bytes :=
  fun f => if f = "out".data then some (CfgWrite c1tree) else none

/-- Clean edits used to witness the amended round-trip claim. -/
def c1wedits : List (Bytes × Bytes × Bytes × Bytes) :=
  [("b".data, "r".data, "c".data, "1".data),
   ("b".data, "r".data, "d".data, "".data),
   ("b2".data, "r 2".data, "c2".data, "va l=2".data)]

/-- The tree built from `c1wedits`. -/
def c1wtree : CfgBlock := applyEdits (CfgBlock.mk "m1".data [] [] []) c1wedits

/-- A filesystem holding exactly the written form of `c1wtree`. -/
def c1wfs : Bytes → Option Bytes :=
  fun f => if f = "out".data then some (CfgWrite c1wtree) else none

/-- A small tree used by lookup witnesses: one root-level row and one
child block whose row holds a non-numeric value and a comma list. -/
def demoCfg : CfgBlock := .mk "n".data "f".data
  [("sr".data, ⟨"sr".data, [("sc".data, "abc".data)]⟩)]
  [("b".data, .mk "b".data "f".data
     [("r".data, ⟨"r".data,
        [("c".data, "abc".data), ("lst".data, "x,y".data)]⟩)] [])]

/-- A registry holding one tree under the name `reg`. -/
def demoState : CfgState := ⟨[("reg".data, demoRoot)]⟩

/-- A block holding one row `a` with column `x=5`, used to exhibit the
merge/replace behaviour of ambiguous row lines. -/
def c2cfg : CfgBlock := .mk "n".data "f".data
  [("a".data, ⟨"a".data, [("x".data, "5".data)]⟩)] []

/-- An ambiguous row line with `+=` before `::`. -/
def c2line1 : Bytes := "a += q :: c=1;".data

/-- An ambiguous row line with `::` before `+=`. -/
def c2line2 : Bytes := "a :: b += c=1;".data

/-- Parse-friendly view of the column text of a written row: the flattened
`colText` output minus its trailing blank — `c1=v1; c2=v2;` style. -/
def colsBody : List (Bytes × Bytes) → Bytes
  | [] => []
  | [p] => p.1 ++ '=' :: p.2 ++ [';']
  | p :: rest => p.1 ++ '=' :: p.2 ++ ';' :: ' ' :: colsBody rest

/-- The written row line without its trailing newline. -/
def rowBody (q : Bytes × CfgRow) : Bytes :=
  '\t' :: q.1 ++ "\t:: ".data ++ (q.2.cols.map colText).flatten

/-- The cleaned form of a written row line. -/
def cleanRowLine (q : Bytes × CfgRow) : Bytes :=
  q.1 ++ '\t' :: ':' :: ':' :: ' ' :: colsBody q.2.cols

/-- The reader chunks produced by one written block: the leading blank
line, the `%block` header, the opening brace, the row lines, a blank line
and the closing brace. -/
def blockChunks (p : Bytes × CfgBlock) : List Bytes :=
  ['\n'] :: ("%block ".data ++ p.1 ++ ['\n']) :: ['\x7b', '\n'] ::
    (p.2.rows.map rowText ++ [['\n'], ['\x7d', '\n']])

/-- Hypotheses under which one written row round-trips. -/
def rowOkP (q : Bytes × CfgRow) : Prop :=
  rowNameOk q.1 = true ∧ q.2.cols ≠ [] ∧ (q.2.cols.map Prod.fst).Nodup ∧
    ∀ w ∈ q.2.cols, colNameOk w.1 = true ∧ valOk w.2 = true

/-- Hypotheses under which one written block round-trips. -/
def blockOkP (p : Bytes × CfgBlock) : Prop :=
  blockNameOk p.1 = true ∧ (p.2.rows.map Prod.fst).Nodup ∧ ∀ q ∈ p.2.rows, rowOkP q

-- ### Basic lemmas ###

theorem alFind?_alInsert_self {α : Type} (m : List (Bytes × α)) (k : Bytes) (v : α) :
    alFind? (alInsert m k v) k = some v := by
  induction m with
  | nil => simp [alInsert, alFind?]
  | cons p t ih =>
    obtain ⟨k1, v1⟩ := p
    by_cases h : k1 = k
    · simp [alInsert, alFind?, h]
    · simp [alInsert, alFind?, h, ih]

theorem alFind?_alInsert_ne {α : Type} (m : List (Bytes × α)) (k k2 : Bytes) (v : α)
    (h : k ≠ k2) : alFind? (alInsert m k v) k2 = alFind? m k2 := by
  induction m with
  | nil => simp [alInsert, alFind?, h]
  | cons p t ih =>
    obtain ⟨k1, v1⟩ := p
    by_cases h1 : k1 = k
    · subst h1
      simp [alInsert, alFind?, h]
    · simp [alInsert, alFind?, h1, ih]

-- ### Claim theorems ###

/-- Claim C4: when a name is already registered, `NewCfg` returns the
cached tree and leaves the registry unchanged, for every filesystem and
every file-name argument — in particular it never opens nor reads a file,
even if a different path is passed or the file content has changed. -/
theorem c4_cached_load_ignores_filesystem
    (fs : Bytes → Option Bytes) (home : Bytes) (fuel : Nat) (st : CfgState)
    (name fname : Bytes) (cfg : CfgBlock)
    (h : alFind? st.cfgs name = some cfg) :
    NewCfg fs home fuel st name fname = .ok (cfg, st) := by
  unfold NewCfg
  rw [h]

/-- Witness for C4: a concrete registered name is answered from the cache
under the empty filesystem (where no file could possibly be opened). -/
theorem c4_cached_load_ignores_filesystem_witness :
    NewCfg fsEmpty [] 0 demoState "reg".data "other/path".data =
      .ok (demoRoot, demoState) :=
  c4_cached_load_ignores_filesystem fsEmpty [] 0 demoState
    "reg".data "other/path".data demoRoot (by rfl)

/-- Claim C10: `NewCfgMem` with an already-registered name panics
(modelled as `Except.error`) instead of returning the cached tree or a
fresh one. -/
theorem c10_newcfgmem_registered_name_panics
    (st : CfgState) (name : Bytes) (cfg : CfgBlock)
    (h : alFind? st.cfgs name = some cfg) :
    NewCfgMem st name =
      .error ("cfg: NewCfgMem or NewCfg already called for cfg " ++ bstr name) := by
  unfold NewCfgMem
  rw [h]

/-- Witness for C10: registering `reg` twice panics. -/
theorem c10_newcfgmem_registered_name_panics_witness :
    NewCfgMem demoState "reg".data =
      .error ("cfg: NewCfgMem or NewCfg already called for cfg " ++ bstr "reg".data) :=
  c10_newcfgmem_registered_name_panics demoState "reg".data demoRoot (by rfl)

/-- Claim C5: a top-level config file that cannot be opened makes `NewCfg`
panic (modelled as `Except.error`, so no partial tree reaches the caller),
and an `%include` line naming an unopenable file makes the loader panic
likewise. -/
theorem c5_missing_file_is_fatal :
    (∀ (fs : Bytes → Option Bytes) (home : Bytes) (fuel : Nat) (st : CfgState)
       (name fname : Bytes),
       alFind? st.cfgs name = none →
       fs (expandUser home fname) = none →
       NewCfg fs home fuel st name fname =
         .error ("could not open file " ++ bstr (expandUser home fname))) ∧
    (∀ (fs : Bytes → Option Bytes) (home fname : Bytes) (fuel : Nat)
       (cfg : CfgBlock) (chunk : Bytes) (rest : List Bytes) (prev : Bytes),
       1 ≤ chunk.length →
       1 ≤ (cleanLine chunk.dropLast).length →
       lineIsInclude (cleanLine chunk.dropLast) = true →
       fs (expandUser home (getFilename (goTrimSpace (cleanLine chunk.dropLast)))) = none →
       loadStream fs home (fuel + 1) fname cfg (chunk :: rest) prev =
         .error ("could not open file " ++
           bstr (expandUser home (getFilename (goTrimSpace (cleanLine chunk.dropLast)))))) := by
  constructor
  · intro fs home fuel st name fname hc hf
    unfold NewCfg
    rw [hc]
    simp only [hf]
  · intro fs home fname fuel cfg chunk rest prev h1 h2 h3 h4
    rw [loadStream]
    rw [if_neg (by omega)]
    rw [if_neg (by omega)]
    rw [if_pos h3]
    simp only [h4]

/-- Witness for C5: a fresh name with a missing file panics, and an
`%include missing` line panics during loading. -/
theorem c5_missing_file_is_fatal_witness :
    NewCfg fsEmpty [] 3 ⟨[]⟩ "x".data "missing".data =
      .error ("could not open file " ++ bstr (expandUser [] "missing".data)) ∧
    loadStream fsEmpty [] 3 "f".data demoRoot ["%include mf\n".data] [] =
      .error ("could not open file " ++
        bstr (expandUser [] (getFilename (goTrimSpace (cleanLine ("%include mf\n".data).dropLast))))) :=
  ⟨c5_missing_file_is_fatal.1 fsEmpty [] 3 ⟨[]⟩ "x".data "missing".data (by rfl) (by rfl),
   c5_missing_file_is_fatal.2 fsEmpty [] "f".data 2 demoRoot "%include mf\n".data [] []
     (by decide) (by decide) (by decide) (by rfl)⟩

/-- Claim C6: inside one block, `name :: a=1;` followed by `+= b=2;`
yields exactly one row `name` with columns `a=1, b=2` (first conjunct),
and a later plain `name :: c=3;` line replaces that row's entire column
set (second conjunct). -/
theorem c6_continuation_merges_redefinition_replaces :
    loadStream fsEmpty [] 50 "f".data demoRoot (readChunks c6content1) [] =
      .ok (.mk "n".data "f".data []
        [("B".data, .mk "B".data "f".data
           [("name".data, ⟨"name".data,
              [("a".data, "1".data), ("b".data, "2".data)]⟩)] [])], []) ∧
    loadStream fsEmpty [] 50 "f".data demoRoot (readChunks c6content2) [] =
      .ok (.mk "n".data "f".data []
        [("B".data, .mk "B".data "f".data
           [("name".data, ⟨"name".data, [("c".data, "3".data)]⟩)] [])], []) :=
  ⟨rfl, rfl⟩

/-- Counterexample to claim C7: after `%block B` the parser does not
consume-and-skip the next content line regardless of its content.  In
`c7content` the line after `%block B` is `r :: a=1;`; the claim predicts
it is silently skipped (no row `r`), but the loader classifies it normally
and it becomes a row of `B`. -/
theorem c7_counterexample_next_line_not_skipped :
    loadStream fsEmpty [] 50 "f".data demoRoot (readChunks c7content) [] =
      .ok (.mk "n".data "f".data []
        [("B".data, .mk "B".data "f".data
           [("r".data, ⟨"r".data, [("a".data, "1".data)]⟩)] [])], []) :=
  rfl

/-- Counterexample to claim C2.  First conjunct: in `a += q :: c=1;` the
`+=` token occurs first, and the claim predicts a continuation that merges
into the existing row `a` (so `x=5` would survive); the code instead
replaces row `a` wholesale, leaving only the newly parsed pair.  Second
conjunct: in `a :: b += c=1;` the `::` token occurs first, and the claim
predicts a fresh row definition (so `x=5` would be dropped); the code
instead merges into the existing row, keeping `x=5`. -/
theorem c2_counterexample_add_flag_inverted :
    loadStream fsEmpty [] 50 "f".data demoRoot (readChunks c2content1) [] =
      .ok (.mk "n".data "f".data
        [("a".data, ⟨"a".data, [("q :: c".data, "1".data)]⟩)] [], []) ∧
    loadStream fsEmpty [] 50 "f".data demoRoot (readChunks c2content2) [] =
      .ok (.mk "n".data "f".data
        [("a".data, ⟨"a".data,
           [("x".data, "5".data), ("b +".data, "c=1".data)]⟩)] [], []) :=
  ⟨rfl, rfl⟩

theorem readChunksAux_no_nl (s : Bytes) (acc : Bytes) (h : '\n' ∉ s) :
    readChunksAux acc s = [acc.reverse ++ s] := by
  induction s generalizing acc with
  | nil => simp [readChunksAux]
  | cons c t ih =>
    have hc : c ≠ '\n' := fun hcc => h (hcc ▸ List.mem_cons_self c t)
    have ht : '\n' ∉ t := fun htt => h (List.mem_cons_of_mem c htt)
    simp [readChunksAux, hc, ih (c :: acc) ht]

theorem readChunks_no_nl (s : Bytes) (h : '\n' ∉ s) : readChunks s = [s] := by
  simpa using readChunksAux_no_nl s [] h

theorem readChunksAux_nl_append (p : Bytes) (rest acc : Bytes)
    (h : '\n' ∉ p) :
    readChunksAux acc (p ++ '\n' :: rest) =
      ((acc.reverse ++ p) ++ ['\n']) :: readChunksAux [] rest := by
  induction p generalizing acc with
  | nil => simp [readChunksAux]
  | cons c t ih =>
    have hc : c ≠ '\n' := fun hcc => h (hcc ▸ List.mem_cons_self c t)
    have ht : '\n' ∉ t := fun htt => h (List.mem_cons_of_mem c htt)
    simp only [List.cons_append]
    rw [readChunksAux, if_neg hc, ih (c :: acc) ht]
    simp

theorem readChunks_concat_nl (p : Bytes) (h : '\n' ∉ p) :
    readChunks (p ++ ['\n']) = [p ++ ['\n'], []] := by
  have := readChunksAux_nl_append p [] [] h
  simpa [readChunks, readChunksAux] using this

theorem loadStream_nil (fs : Bytes → Option Bytes) (home fname : Bytes) (g : Nat)
    (cfg : CfgBlock) (prev : Bytes) :
    loadStream fs home (g + 1) fname cfg [] prev = .ok (cfg, []) := by
  rw [loadStream]

theorem loadStream_emptychunk (fs : Bytes → Option Bytes) (home fname : Bytes)
    (g : Nat) (cfg : CfgBlock) (prev : Bytes) :
    loadStream fs home (g + 2) fname cfg [[]] prev = .ok (cfg, []) := by
  rw [loadStream]
  rw [if_pos (by simp)]
  exact loadStream_nil fs home fname g cfg prev

/-- Claim C8 (implicit): when a file's final line has no trailing newline,
the loader still strips one character from it, so the final line is parsed
with its last byte missing.  First conjunct: loading any nonempty
newline-free content yields the same tree as loading that content with its
last byte removed and a newline appended.  Second conjunct: the claim's
example — `a :: k=v` without a newline is parsed like `a :: k=`, storing
an empty value for column `k`. -/
theorem c8_missing_final_newline_drops_last_byte :
    (∀ (fs : Bytes → Option Bytes) (home fname : Bytes) (fuel : Nat)
       (cfg : CfgBlock) (prev : Bytes) (s : Bytes),
       '\n' ∉ s → s ≠ [] →
       (loadStream fs home (fuel + 3) fname cfg (readChunks s) prev).map Prod.fst =
         (loadStream fs home (fuel + 3) fname cfg
           (readChunks (s.dropLast ++ ['\n'])) prev).map Prod.fst) ∧
    loadStream fsEmpty [] 50 "f".data demoRoot (readChunks c8content) [] =
      .ok (.mk "n".data "f".data
        [("a".data, ⟨"a".data, [("k".data, [])]⟩)] [], []) := by
  constructor
  · intro fs home fname fuel cfg prev s h1 h2
    have h1d : '\n' ∉ s.dropLast := fun hm => h1 (List.dropLast_subset s hm)
    rw [readChunks_no_nl s h1, readChunks_concat_nl s.dropLast h1d]
    have hlen : ¬ s.length < 1 := by
      cases s with
      | nil => exact absurd rfl h2
      | cons a t => simp
    have hlen2 : ¬ (s.dropLast ++ ['\n']).length < 1 := by simp
    conv_lhs => rw [loadStream, if_neg hlen]
    conv_rhs => rw [loadStream, if_neg hlen2]
    simp only [List.dropLast_concat]
    by_cases hb : (cleanLine s.dropLast).length < 1
    · rw [if_pos hb, if_pos hb, loadStream_nil, loadStream_emptychunk]
    · rw [if_neg hb, if_neg hb]
      by_cases hinc : lineIsInclude (cleanLine s.dropLast) = true
      · rw [if_pos hinc, if_pos hinc]
        cases hfs : fs (expandUser home (getFilename (goTrimSpace (cleanLine s.dropLast)))) with
        | none => simp [hfs]
        | some content =>
          simp only [hfs]
          cases hin : loadStream fs home (fuel + 2)
              (expandUser home (getFilename (goTrimSpace (cleanLine s.dropLast))))
              cfg (readChunks content) [] with
          | error e => rfl
          | ok p =>
            obtain ⟨cfg2, rem⟩ := p
            dsimp only
            rw [loadStream_nil, loadStream_emptychunk]
      · rw [if_neg hinc, if_neg hinc]
        by_cases hend : lineIsBlockEnd (cleanLine s.dropLast) = true
        · rw [if_pos hend, if_pos hend]
          rfl
        · rw [if_neg hend, if_neg hend]
          by_cases hnew : lineIsBlockNew (cleanLine s.dropLast) = true
          · rw [if_pos hnew, if_pos hnew]
            rw [loadStream_nil, loadStream_emptychunk]
          · rw [if_neg hnew, if_neg hnew]
            by_cases hcont : 2 < (cleanLine s.dropLast).length ∧
                (cleanLine s.dropLast).take 2 = "+=".data
            · rw [if_pos hcont, if_pos hcont]
              rw [loadStream_nil, loadStream_emptychunk]
            · rw [if_neg hcont, if_neg hcont]
              by_cases hbr : (cleanLine s.dropLast).head? = some '\x7b'
              · rw [if_pos hbr, if_pos hbr, loadStream_nil, loadStream_emptychunk]
              · rw [if_neg hbr, if_neg hbr]
                rw [loadStream_nil, loadStream_emptychunk]
  · rfl

/-- Witness for C8: the general conjunct applied at the claim's example
input `a :: k=v`. -/
theorem c8_missing_final_newline_drops_last_byte_witness :
    (loadStream fsEmpty [] 13 "f".data demoRoot (readChunks "a :: k=v".data) []).map Prod.fst =
      (loadStream fsEmpty [] 13 "f".data demoRoot
        (readChunks ("a :: k=v".data.dropLast ++ ['\n'])) []).map Prod.fst :=
  c8_missing_final_newline_drops_last_byte.1 fsEmpty [] "f".data 10 demoRoot []
    "a :: k=v".data (by decide) (by decide)

theorem goSplitOn_ne_nil (sep : Char) (l : Bytes) : goSplitOn sep l ≠ [] := by
  induction l with
  | nil => simp [goSplitOn]
  | cons c t ih =>
    unfold goSplitOn
    cases h : goSplitOn sep t with
    | nil => simp
    | cons h2 r =>
      by_cases hc : c = sep <;> simp [hc]

theorem str_miss_default (cfg : CfgBlock) (tbl row col d : Bytes)
    (h : colOf cfg tbl row col = none) : cfg.Str tbl row col d = d := by
  unfold CfgBlock.Str
  unfold colOf at h
  cases h1 : alFind? cfg.tbls tbl with
  | none => rfl
  | some t =>
    rw [h1] at h
    dsimp only at h ⊢
    cases h2 : alFind? t.rows row with
    | none => rfl
    | some r =>
      rw [h2] at h
      dsimp only at h ⊢
      rw [h]

theorem alInsert_keys_sup {α : Type} (m : List (Bytes × α)) (k : Bytes) (v : α)
    (x : Bytes) (h : x ∈ m.map Prod.fst) : x ∈ (alInsert m k v).map Prod.fst := by
  induction m with
  | nil => exact absurd h (by simp)
  | cons p t ih =>
    obtain ⟨k1, v1⟩ := p
    rw [List.map_cons, List.mem_cons] at h
    by_cases h1 : k1 = k
    · unfold alInsert
      rw [if_pos h1, List.map_cons, List.mem_cons]
      rcases h with h | h
      · exact Or.inl (h.trans h1)
      · exact Or.inr h
    · unfold alInsert
      rw [if_neg h1, List.map_cons, List.mem_cons]
      rcases h with h | h
      · exact Or.inl h
      · exact Or.inr (ih h)

theorem alInsert_keys_self {α : Type} (m : List (Bytes × α)) (k : Bytes) (v : α) :
    k ∈ (alInsert m k v).map Prod.fst := by
  induction m with
  | nil => simp [alInsert]
  | cons p t ih =>
    obtain ⟨k1, v1⟩ := p
    by_cases h1 : k1 = k
    · unfold alInsert
      rw [if_pos h1, List.map_cons, List.mem_cons]
      exact Or.inl rfl
    · unfold alInsert
      rw [if_neg h1, List.map_cons, List.mem_cons]
      exact Or.inr ih

theorem innerFold_keys_sup (l : List Bytes) (m : List (Bytes × Bool)) (x : Bytes)
    (h : x ∈ m.map Prod.fst) :
    x ∈ ((l.foldl (fun m2 box => alInsert m2 box true) m).map Prod.fst) := by
  induction l generalizing m with
  | nil => exact h
  | cons b rest ih => exact ih (alInsert m b true) (alInsert_keys_sup m b true x h)

theorem innerFold_keys_add (l : List Bytes) (m : List (Bytes × Bool)) (x : Bytes)
    (h : x ∈ l) :
    x ∈ ((l.foldl (fun m2 box => alInsert m2 box true) m).map Prod.fst) := by
  induction l generalizing m with
  | nil => exact absurd h (by simp)
  | cons b rest ih =>
    rcases List.mem_cons.mp h with h | h
    · subst h
      exact innerFold_keys_sup rest (alInsert m x true) x (alInsert_keys_self m x true)
    · exact ih (alInsert m b true) h

theorem expand_fold_mem (cfg : CfgBlock) (block row2 : Bytes)
    (l : List Bytes) (m : List (Bytes × Bool)) (x : Bytes)
    (h : x ∈ m.map Prod.fst ∨ ∃ k ∈ l, x ∈ cfg.Split block row2 k []) :
    x ∈ ((l.foldl (fun m2 boxtype =>
        (cfg.Split block row2 boxtype []).foldl
          (fun m3 box => alInsert m3 box true) m2) m).map Prod.fst) := by
  induction l generalizing m with
  | nil =>
    rcases h with h | ⟨k, hk, _⟩
    · simpa using h
    · simp at hk
  | cons a rest ih =>
    rcases h with h | ⟨k, hk, hx⟩
    · exact ih _ (Or.inl (innerFold_keys_sup _ m x h))
    · rcases List.mem_cons.mp hk with hk | hk
      · subst hk
        exact ih _ (Or.inl (innerFold_keys_add _ m x hx))
      · exact ih _ (Or.inr ⟨k, hk, hx⟩)

/-- Claim C9 (implicit): `Split` never returns an empty list (first
conjunct); with the empty default, a lookup miss makes it return the
one-element list holding the empty string (second conjunct); consequently
`Expandlist` includes the empty string in its result whenever some listed
key is absent from the target row (third conjunct). -/
theorem c9_split_nonempty_expandlist_gains_empty_string :
    (∀ (cfg : CfgBlock) (tbl row col d : Bytes),
       1 ≤ (cfg.Split tbl row col d).length) ∧
    (∀ (cfg : CfgBlock) (tbl row col : Bytes),
       colOf cfg tbl row col = none → cfg.Split tbl row col [] = [[]]) ∧
    (∀ (cfg : CfgBlock) (block row col row2 k : Bytes),
       block ≠ [] → row ≠ [] → col ≠ [] → row2 ≠ [] →
       k ∈ cfg.Split block row col [] →
       colOf cfg block row2 k = none →
       [] ∈ cfg.Expandlist block row col row2) := by
  refine ⟨?_, ?_, ?_⟩
  · intro cfg tbl row col d
    have h := goSplitOn_ne_nil ',' (cfg.Str tbl row col d)
    unfold CfgBlock.Split
    cases hs : goSplitOn ',' (cfg.Str tbl row col d) with
    | nil => exact absurd hs h
    | cons a t => simp
  · intro cfg tbl row col h
    unfold CfgBlock.Split
    rw [str_miss_default cfg tbl row col [] h]
    rfl
  · intro cfg block row col row2 k hb hr hc hr2 hk hmiss
    unfold CfgBlock.Expandlist
    rw [if_neg]
    · refine expand_fold_mem cfg block row2 _ [] [] (Or.inr ⟨k, hk, ?_⟩)
      have : cfg.Split block row2 k [] = [[]] := by
        unfold CfgBlock.Split
        rw [str_miss_default cfg block row2 k [] hmiss]
        rfl
      rw [this]
      simp
    · push_neg
      refine ⟨?_, ?_, ?_, ?_⟩ <;>
        simp [List.length_pos, *]

/-- Witness for C9: on `demoCfg`, `Split` of the present list value has
length at least one, a missing column splits to `[""]`, and expanding the
list `x,y` against the absent row `r2` puts the empty string into the
result. -/
theorem c9_split_nonempty_expandlist_gains_empty_string_witness :
    1 ≤ (demoCfg.Split "b".data "r".data "lst".data "d".data).length ∧
    demoCfg.Split "b".data "r".data "zz".data [] = [[]] ∧
    [] ∈ demoCfg.Expandlist "b".data "r".data "lst".data "r2".data :=
  ⟨c9_split_nonempty_expandlist_gains_empty_string.1 demoCfg
     "b".data "r".data "lst".data "d".data,
   c9_split_nonempty_expandlist_gains_empty_string.2.1 demoCfg
     "b".data "r".data "zz".data (by decide),
   c9_split_nonempty_expandlist_gains_empty_string.2.2 demoCfg
     "b".data "r".data "lst".data "r2".data "x".data
     (by decide) (by decide) (by decide) (by decide) (by decide) (by decide)⟩

theorem rows_setRows (cfg : CfgBlock) (r : List (Bytes × CfgRow)) :
    (cfg.setRows r).rows = r := by
  cases cfg
  rfl

theorem finishRow_replace (cfg : CfgBlock) (name data : Bytes) :
    alFind? (finishRow cfg name data false).1.rows name =
      some ⟨name, (goSplitOn ';' data).foldl colStep []⟩ := by
  unfold finishRow
  cases h : alFind? cfg.rows name <;>
    simp only [h] <;>
    rw [rows_setRows] <;>
    exact alFind?_alInsert_self cfg.rows name _

theorem finishRow_merge (cfg : CfgBlock) (name data : Bytes) :
    alFind? (finishRow cfg name data true).1.rows name =
      some (match alFind? cfg.rows name with
            | some r => ⟨r.name, (goSplitOn ';' data).foldl colStep r.cols⟩
            | none => ⟨name, (goSplitOn ';' data).foldl colStep []⟩) := by
  unfold finishRow
  cases h : alFind? cfg.rows name <;>
    simp only [h] <;>
    rw [rows_setRows] <;>
    exact alFind?_alInsert_self cfg.rows name _

/-- Amended claim C2: on a line containing both `::` and `+=` (and with no
pending continuation row name), the operator occurring first still marks
the end of the row name and the start of the column data, but the roles
are the reverse of the original claim: when `+=` occurs first the row
named by the text before it is replaced outright (its column map is
rebuilt from empty, first conjunct); when `::` occurs first the parsed
pairs are merged into the existing row of that name, whose previous
columns serve as the base of the fold (second conjunct). -/
theorem c2_amended_first_operator_splits_but_roles_swapped
    (cfg : CfgBlock) (line0 : Bytes) (nNew nAdd : Nat)
    (hNew : goIndexAux "::".data (cleanLine line0) = some nNew)
    (hAdd : goIndexAux "+=".data (cleanLine line0) = some nAdd)
    (hAddPos : 0 < nAdd) :
    (nAdd < nNew →
       alFind? (loadRow cfg line0 []).1.rows (cleanLine ((cleanLine line0).take nAdd)) =
         some ⟨cleanLine ((cleanLine line0).take nAdd),
               (goSplitOn ';' (cleanLine ((cleanLine line0).drop (nAdd + 2)))).foldl colStep []⟩) ∧
    (nNew ≤ nAdd →
       alFind? (loadRow cfg line0 []).1.rows (cleanLine ((cleanLine line0).take nNew)) =
         some (match alFind? cfg.rows (cleanLine ((cleanLine line0).take nNew)) with
               | some r => ⟨r.name,
                   (goSplitOn ';' (cleanLine ((cleanLine line0).drop (nNew + 2)))).foldl colStep r.cols⟩
               | none => ⟨cleanLine ((cleanLine line0).take nNew),
                   (goSplitOn ';' (cleanLine ((cleanLine line0).drop (nNew + 2)))).foldl colStep []⟩)) := by
  constructor
  · intro hlt
    unfold loadRow
    rw [if_pos (by simp)]
    unfold goIndex
    rw [hNew, hAdd]
    dsimp only
    rw [if_pos ⟨Int.natCast_nonneg nNew, by exact_mod_cast hAddPos⟩]
    rw [if_pos (by exact_mod_cast hlt)]
    simp only [Int.toNat_natCast]
    exact finishRow_replace cfg _ _
  · intro hle
    unfold loadRow
    rw [if_pos (by simp)]
    unfold goIndex
    rw [hNew, hAdd]
    dsimp only
    rw [if_pos ⟨Int.natCast_nonneg nNew, by exact_mod_cast hAddPos⟩]
    rw [if_neg (by push_neg; exact_mod_cast hle)]
    simp only [Int.toNat_natCast]
    exact finishRow_merge cfg _ _

/-- Witness for amended C2: on `c2cfg` (row `a` with `x=5`), the line
`a += q :: c=1;` replaces row `a` (the old `x=5` is gone), and the line
`a :: b += c=1;` merges into row `a` (the old `x=5` survives). -/
theorem c2_amended_first_operator_splits_but_roles_swapped_witness :
    alFind? (loadRow c2cfg c2line1 []).1.rows "a".data =
      some ⟨"a".data, [("q :: c".data, "1".data)]⟩ ∧
    alFind? (loadRow c2cfg c2line2 []).1.rows "a".data =
      some ⟨"a".data, [("x".data, "5".data), ("b +".data, "c=1".data)]⟩ :=
  ⟨(c2_amended_first_operator_splits_but_roles_swapped c2cfg c2line1 7 2
      (by decide) (by decide) (by decide)).1 (by decide),
   (c2_amended_first_operator_splits_but_roles_swapped c2cfg c2line2 2 7
      (by decide) (by decide) (by decide)).2 (by decide)⟩

theorem tbls_setRows (cfg : CfgBlock) (r : List (Bytes × CfgRow)) :
    (cfg.setRows r).tbls = cfg.tbls := by
  cases cfg
  rfl

theorem rows_setTbls (cfg : CfgBlock) (t : List (Bytes × CfgBlock)) :
    (cfg.setTbls t).rows = cfg.rows := by
  cases cfg
  rfl

theorem tbls_setTbls (cfg : CfgBlock) (t : List (Bytes × CfgBlock)) :
    (cfg.setTbls t).tbls = t := by
  cases cfg
  rfl

theorem name_setTbls (cfg : CfgBlock) (t : List (Bytes × CfgBlock)) :
    (cfg.setTbls t).name = cfg.name := by
  cases cfg
  rfl

theorem fname_setTbls (cfg : CfgBlock) (t : List (Bytes × CfgBlock)) :
    (cfg.setTbls t).fname = cfg.fname := by
  cases cfg
  rfl

theorem setTbls_setTbls (cfg : CfgBlock) (t u : List (Bytes × CfgBlock)) :
    (cfg.setTbls t).setTbls u = cfg.setTbls u := by
  cases cfg
  rfl

theorem setRows_setRows (cfg : CfgBlock) (r s : List (Bytes × CfgRow)) :
    (cfg.setRows r).setRows s = cfg.setRows s := by
  cases cfg
  rfl

theorem alInsert_fresh_append {α : Type} (m : List (Bytes × α)) (k : Bytes) (v : α)
    (h : alFind? m k = none) : alInsert m k v = m ++ [(k, v)] := by
  induction m with
  | nil => rfl
  | cons p t ih =>
    obtain ⟨k1, v1⟩ := p
    unfold alFind? at h
    by_cases h1 : k1 = k
    · rw [if_pos h1] at h
      exact absurd h (by simp)
    · rw [if_neg h1] at h
      unfold alInsert
      rw [if_neg h1, ih h]
      rfl

theorem alFind?_append {α : Type} (a b : List (Bytes × α)) (k : Bytes) :
    alFind? (a ++ b) k =
      match alFind? a k with
      | some v => some v
      | none => alFind? b k := by
  induction a with
  | nil => rfl
  | cons p t ih =>
    obtain ⟨k1, v1⟩ := p
    by_cases h1 : k1 = k
    · simp [alFind?, h1]
    · simp only [List.cons_append, alFind?, if_neg h1]
      exact ih

theorem alFind?_mem {α : Type} (m : List (Bytes × α)) (k : Bytes) (v : α)
    (h : alFind? m k = some v) : (k, v) ∈ m := by
  induction m with
  | nil => exact absurd h (by simp [alFind?])
  | cons p t ih =>
    obtain ⟨k1, v1⟩ := p
    unfold alFind? at h
    by_cases h1 : k1 = k
    · rw [if_pos h1] at h
      injection h with h2
      subst h1 h2
      exact List.mem_cons_self _ _
    · rw [if_neg h1] at h
      exact List.mem_cons_of_mem _ (ih h)

theorem alInsert_mem {α : Type} (m : List (Bytes × α)) (k : Bytes) (v : α)
    (p : Bytes × α) (h : p ∈ alInsert m k v) : p ∈ m ∨ p = (k, v) := by
  induction m with
  | nil =>
    unfold alInsert at h
    rcases List.mem_singleton.mp h with h2
    exact Or.inr h2
  | cons q t ih =>
    obtain ⟨k1, v1⟩ := q
    unfold alInsert at h
    by_cases h1 : k1 = k
    · rw [if_pos h1] at h
      rcases List.mem_cons.mp h with h2 | h2
      · exact Or.inr h2
      · exact Or.inl (List.mem_cons_of_mem _ h2)
    · rw [if_neg h1] at h
      rcases List.mem_cons.mp h with h2 | h2
      · exact Or.inl (h2 ▸ List.mem_cons_self _ _)
      · rcases ih h2 with h3 | h3
        · exact Or.inl (List.mem_cons_of_mem _ h3)
        · exact Or.inr h3

theorem alInsert_keys_nodup {α : Type} (m : List (Bytes × α)) (k : Bytes) (v : α)
    (h : (m.map Prod.fst).Nodup) : ((alInsert m k v).map Prod.fst).Nodup := by
  induction m with
  | nil => simp [alInsert]
  | cons p t ih =>
    obtain ⟨k1, v1⟩ := p
    rw [List.map_cons, List.nodup_cons] at h
    by_cases h1 : k1 = k
    · unfold alInsert
      rw [if_pos h1, List.map_cons, List.nodup_cons]
      exact ⟨h1 ▸ h.1, h.2⟩
    · unfold alInsert
      rw [if_neg h1, List.map_cons, List.nodup_cons]
      refine ⟨fun hm => ?_, ih h.2⟩
      have := List.mem_map.mp hm
      obtain ⟨q, hq, hq1⟩ := this
      rcases alInsert_mem t k v q hq with h2 | h2
      · exact h.1 (List.mem_map.mpr ⟨q, h2, hq1⟩)
      · rw [h2] at hq1
        exact absurd hq1.symm h1

theorem alInsert_ne_nil {α : Type} (m : List (Bytes × α)) (k : Bytes) (v : α) :
    alInsert m k v ≠ [] := by
  cases m with
  | nil => simp [alInsert]
  | cons p t =>
    obtain ⟨k1, v1⟩ := p
    unfold alInsert
    by_cases h1 : k1 = k <;> simp [h1]

theorem toLower_percent (c : Char) (h : Char.toLower c = '%') : c = '%' := by
  unfold Char.toLower at h
  simp only [] at h
  by_cases hc : c.toNat ≥ 65 ∧ c.toNat ≤ 90
  · rw [if_pos hc] at h
    have h2 := congrArg Char.toNat h
    have hv : (c.toNat + 32).isValidChar := by
      unfold Nat.isValidChar
      left
      omega
    rw [Char.ofNat, dif_pos hv] at h2
    rw [show Char.toNat (Char.ofNatAux (c.toNat + 32) hv) = c.toNat + 32 from rfl] at h2
    have : ('%').toNat = 37 := by decide
    omega
  · rw [if_neg hc] at h
    exact h

theorem takeWhile_ne_hash (l : Bytes) (h : '#' ∉ l) :
    l.takeWhile (fun c => c ≠ '#') = l := by
  induction l with
  | nil => rfl
  | cons c t ih =>
    have hc : c ≠ '#' := fun hcc => h (hcc ▸ List.mem_cons_self c t)
    have ht : '#' ∉ t := fun htt => h (List.mem_cons_of_mem c htt)
    rw [List.takeWhile_cons, if_pos (by simp [hc]), ih ht]

theorem dropWhile_isBlank_head (l : Bytes)
    (h : ∀ c, l.head? = some c → isBlank c = false) :
    l.dropWhile isBlank = l := by
  cases l with
  | nil => rfl
  | cons c t =>
    rw [List.dropWhile_cons, if_neg]
    simp [h c rfl]

theorem cleanLine_eq_self (l : Bytes) (h1 : '#' ∉ l)
    (h2 : ∀ c, l.head? = some c → isBlank c = false)
    (h3 : ∀ c, l.getLast? = some c → isBlank c = false) :
    cleanLine l = l := by
  unfold cleanLine
  rw [takeWhile_ne_hash l h1]
  dsimp only
  rw [dropWhile_isBlank_head l h2]
  rw [dropWhile_isBlank_head l.reverse (fun c hc => h3 c (by
    rw [List.getLast?_eq_head?_reverse]
    exact hc))]
  exact List.reverse_reverse l

theorem dropWhile_append_nil {p : Char → Bool} (l r : Bytes)
    (h : l.dropWhile p = []) : (l ++ r).dropWhile p = r.dropWhile p := by
  induction l with
  | nil => rfl
  | cons a t ih =>
    rw [List.dropWhile_cons] at h
    by_cases ha : p a = true
    · rw [List.cons_append, List.dropWhile_cons, if_pos ha]
      exact ih (by rwa [if_pos ha] at h)
    · rw [if_neg ha] at h
      exact absurd h (by simp)

theorem dropWhile_append_cons {p : Char → Bool} (l r : Bytes) (a : Char) (t : Bytes)
    (h : l.dropWhile p = a :: t) : (l ++ r).dropWhile p = a :: t ++ r := by
  induction l with
  | nil =>
    simp only [List.dropWhile_nil] at h
    exact absurd h (by simp)
  | cons b u ih =>
    rw [List.dropWhile_cons] at h
    by_cases hb : p b = true
    · rw [List.cons_append, List.dropWhile_cons, if_pos hb]
      exact ih (by rwa [if_pos hb] at h)
    · rw [if_neg hb] at h
      injection h with h1 h2
      subst h1 h2
      rw [List.cons_append, List.dropWhile_cons, if_neg hb]

theorem cleanLine_cons_blank (c : Char) (l : Bytes) (hc : isBlank c = true)
    (hch : c ≠ '#') : cleanLine (c :: l) = cleanLine l := by
  unfold cleanLine
  rw [List.takeWhile_cons, if_pos (by simp [hch])]
  dsimp only
  rw [List.dropWhile_cons, if_pos hc]

theorem cleanLine_append_blank (l : Bytes) (c : Char) (hc : isBlank c = true)
    (hch : c ≠ '#') (hh : '#' ∉ l) : cleanLine (l ++ [c]) = cleanLine l := by
  unfold cleanLine
  rw [takeWhile_ne_hash (l ++ [c]) (by
    intro hm
    rcases List.mem_append.mp hm with hm | hm
    · exact hh hm
    · exact hch (List.mem_singleton.mp hm).symm)]
  rw [takeWhile_ne_hash l hh]
  dsimp only
  cases hdl : l.dropWhile isBlank with
  | nil =>
    rw [dropWhile_append_nil l [c] hdl]
    rw [List.dropWhile_cons, if_pos hc]
    simp [hdl]
  | cons a t =>
    rw [dropWhile_append_cons l [c] a t hdl]
    have : (a :: t ++ [c]).reverse = c :: (a :: t).reverse := by simp
    rw [this]
    rw [List.dropWhile_cons, if_pos hc]

theorem goSplitOn_sep_append (sep : Char) (x rest : Bytes) (h : sep ∉ x) :
    goSplitOn sep (x ++ sep :: rest) = x :: goSplitOn sep rest := by
  induction x with
  | nil =>
    rw [List.nil_append, goSplitOn]
    cases hr : goSplitOn sep rest with
    | nil => exact absurd hr (goSplitOn_ne_nil sep rest)
    | cons h2 r =>
      dsimp only
      rw [if_pos rfl]
  | cons c t ih =>
    have hc : c ≠ sep := fun hcc => h (hcc ▸ List.mem_cons_self c t)
    have ht : sep ∉ t := fun htt => h (List.mem_cons_of_mem c htt)
    rw [List.cons_append, goSplitOn, ih ht]
    dsimp only
    rw [if_neg hc]

theorem goSplitN2_no_sep (x : Bytes) (sep : Char) (h : sep ∉ x) :
    goSplitN2 x sep = (x, none) := by
  induction x with
  | nil => rfl
  | cons c t ih =>
    have hc : c ≠ sep := fun hcc => h (hcc ▸ List.mem_cons_self c t)
    have ht : sep ∉ t := fun htt => h (List.mem_cons_of_mem c htt)
    rw [goSplitN2.eq_def]
    dsimp only
    rw [if_neg hc, ih ht]

theorem goSplitN2_sep_append (a b : Bytes) (sep : Char) (h : sep ∉ a) :
    goSplitN2 (a ++ sep :: b) sep = (a, some b) := by
  induction a with
  | nil =>
    rw [List.nil_append, goSplitN2.eq_def]
    dsimp only
    rw [if_pos rfl]
  | cons c t ih =>
    have hc : c ≠ sep := fun hcc => h (hcc ▸ List.mem_cons_self c t)
    have ht : sep ∉ t := fun htt => h (List.mem_cons_of_mem c htt)
    rw [List.cons_append, goSplitN2.eq_def]
    dsimp only
    rw [if_neg hc, ih ht]

theorem hasSeq_cons_decomp (pat : Bytes) (c : Char) (t : Bytes)
    (h : hasSeq pat (c :: t) = false) :
    pat.isPrefixOf (c :: t) = false ∧ hasSeq pat t = false := by
  unfold hasSeq at *
  rw [goIndexAux] at h
  by_cases hp : pat.isPrefixOf (c :: t)
  · rw [if_pos hp] at h
    exact absurd h (by simp)
  · rw [if_neg hp] at h
    constructor
    · exact Bool.eq_false_iff.mpr hp
    · cases hg : goIndexAux pat t with
      | none => rfl
      | some k =>
        rw [hg] at h
        exact absurd h (by simp)

theorem goIndexAux_rowline_new (r cs : Bytes) (h : hasSeq "::".data r = false) :
    goIndexAux "::".data (r ++ '\t' :: ':' :: ':' :: ' ' :: cs) =
      some (r.length + 1) := by
  induction r with
  | nil =>
    rw [List.nil_append]
    rw [goIndexAux, if_neg (by simp [List.isPrefixOf])]
    rw [goIndexAux, if_pos (by simp [List.isPrefixOf])]
    rfl
  | cons c r' ih =>
    obtain ⟨hp, ht⟩ := hasSeq_cons_decomp _ c r' h
    rw [List.cons_append, goIndexAux, if_neg ?hpre]
    case hpre =>
      cases r' with
      | nil => simp [List.isPrefixOf]
      | cons d r'' =>
        simp only [List.cons_append, List.isPrefixOf, Bool.and_true] at hp ⊢
        simp [hp]
    rw [ih ht]
    rfl

theorem goIndexAux_rowline_add (r cs : Bytes) (h : hasSeq "+=".data r = false) :
    ∀ k, goIndexAux "+=".data (r ++ '\t' :: ':' :: ':' :: ' ' :: cs) = some k →
      r.length + 4 ≤ k := by
  induction r with
  | nil =>
    intro k hk
    rw [List.nil_append] at hk
    rw [goIndexAux, if_neg (by simp [List.isPrefixOf])] at hk
    rw [goIndexAux, if_neg (by simp [List.isPrefixOf])] at hk
    rw [goIndexAux, if_neg (by simp [List.isPrefixOf])] at hk
    rw [goIndexAux, if_neg (by simp [List.isPrefixOf])] at hk
    cases hcs : goIndexAux "+=".data cs with
    | none =>
      rw [hcs] at hk
      simp at hk
    | some j =>
      rw [hcs] at hk
      simp only [Option.map_some'] at hk
      injection hk with hk2
      subst hk2
      simp
  | cons c r' ih =>
    intro k hk
    obtain ⟨hp, ht⟩ := hasSeq_cons_decomp _ c r' h
    rw [List.cons_append, goIndexAux, if_neg ?hpre] at hk
    case hpre =>
      cases r' with
      | nil => simp [List.isPrefixOf]
      | cons d r'' =>
        simp only [List.cons_append, List.isPrefixOf, Bool.and_true] at hp ⊢
        simp [hp]
    cases hg : goIndexAux "+=".data (r' ++ '\t' :: ':' :: ':' :: ' ' :: cs) with
    | none =>
      rw [hg] at hk
      simp at hk
    | some j =>
      rw [hg] at hk
      simp only [Option.map_some'] at hk
      injection hk with hk2
      subst hk2
      have := ih ht j hg
      simp only [List.length_cons]
      simp
      omega

theorem head?_append_left (a b : Bytes) (h : a ≠ []) : (a ++ b).head? = a.head? := by
  cases a with
  | nil => exact absurd rfl h
  | cons c t => rfl

theorem colText_flatten (cols : List (Bytes × Bytes)) (h : cols ≠ []) :
    (cols.map colText).flatten = colsBody cols ++ [' '] := by
  induction cols with
  | nil => exact absurd rfl h
  | cons p rest ih =>
    cases rest with
    | nil => simp [colText, colsBody]
    | cons q r =>
      rw [List.map_cons, List.flatten_cons, ih (by simp)]
      show colText p ++ (colsBody (q :: r) ++ [' ']) =
        (p.1 ++ '=' :: p.2 ++ ';' :: ' ' :: colsBody (q :: r)) ++ [' ']
      simp [colText, List.append_assoc]

theorem colsBody_ne_nil (cols : List (Bytes × Bytes)) (h : cols ≠ []) :
    colsBody cols ≠ [] := by
  cases cols with
  | nil => exact absurd rfl h
  | cons p rest =>
    cases rest with
    | nil =>
      show p.1 ++ '=' :: p.2 ++ [';'] ≠ []
      simp
    | cons q r =>
      show p.1 ++ '=' :: p.2 ++ ';' :: ' ' :: colsBody (q :: r) ≠ []
      simp

theorem getLast?_append_right (a b : Bytes) (c : Char) (h : b.getLast? = some c) :
    (a ++ b).getLast? = some c := by
  rw [List.getLast?_append, h]
  rfl

theorem getLast?_cons_right (a : Char) (b : Bytes) (c : Char)
    (h : b.getLast? = some c) : (a :: b).getLast? = some c := by
  rw [show a :: b = [a] ++ b from rfl, List.getLast?_append, h]
  rfl

theorem colsBody_getLast (cols : List (Bytes × Bytes)) (h : cols ≠ []) :
    (colsBody cols).getLast? = some ';' := by
  induction cols with
  | nil => exact absurd rfl h
  | cons p rest ih =>
    cases rest with
    | nil =>
      have hx : (p.1 ++ '=' :: (p.2 ++ [';'])).getLast? = some ';' :=
        getLast?_append_right p.1 _ ';'
          (getLast?_cons_right '=' _ ';' (getLast?_append_right p.2 [';'] ';' rfl))
      show (p.1 ++ '=' :: p.2 ++ [';']).getLast? = some ';'
      simpa only [List.append_assoc, List.cons_append] using hx
    | cons q r =>
      have hx : (p.1 ++ '=' :: (p.2 ++ ';' :: ' ' :: colsBody (q :: r))).getLast? = some ';' :=
        getLast?_append_right p.1 _ ';'
          (getLast?_cons_right '=' _ ';'
            (getLast?_append_right p.2 _ ';'
              (getLast?_cons_right ';' _ ';'
                (getLast?_cons_right ' ' _ ';' (ih (by simp))))))
      show (p.1 ++ '=' :: p.2 ++ ';' :: ' ' :: colsBody (q :: r)).getLast? = some ';'
      simpa only [List.append_assoc, List.cons_append] using hx

theorem noMeta_spec (l : Bytes) (h : noMeta l = true) : '#' ∉ l ∧ '\n' ∉ l := by
  unfold noMeta at h
  rw [Bool.and_eq_true] at h
  constructor
  · intro hm
    have := h.1
    simp [hm] at this
  · intro hm
    have := h.2
    simp [hm] at this

theorem trimmedTok_head (l : Bytes) (h : trimmedTok l = true) :
    ∀ c, l.head? = some c → isBlank c = false := by
  intro c hc
  unfold trimmedTok at h
  rw [Bool.and_eq_true] at h
  have := h.1
  rw [hc] at this
  simpa using this

theorem trimmedTok_last (l : Bytes) (h : trimmedTok l = true) :
    ∀ c, l.getLast? = some c → isBlank c = false := by
  intro c hc
  unfold trimmedTok at h
  rw [Bool.and_eq_true] at h
  have := h.2
  rw [hc] at this
  simpa using this

theorem colNameOk_spec (k : Bytes) (h : colNameOk k = true) :
    k ≠ [] ∧ noMeta k = true ∧ trimmedTok k = true ∧ '=' ∉ k ∧ ';' ∉ k := by
  unfold colNameOk at h
  simp only [Bool.and_eq_true] at h
  refine ⟨by simpa using h.1.1.1.1, h.1.1.1.2, h.1.1.2, ?_, ?_⟩
  · intro hm
    have := h.1.2
    simp [hm] at this
  · intro hm
    have := h.2
    simp [hm] at this

theorem valOk_spec (v : Bytes) (h : valOk v = true) :
    noMeta v = true ∧ trimmedTok v = true ∧ ';' ∉ v := by
  unfold valOk at h
  simp only [Bool.and_eq_true] at h
  refine ⟨h.1.1, h.1.2, ?_⟩
  intro hm
  have := h.2
  simp [hm] at this

theorem rowNameOk_spec (r : Bytes) (h : rowNameOk r = true) :
    r ≠ [] ∧ noMeta r = true ∧ trimmedTok r = true ∧
      hasSeq "::".data r = false ∧ hasSeq "+=".data r = false ∧
      ∀ c, r.head? = some c → (c = '%' ∨ c = '\x7b' ∨ c = '\x7d') → False := by
  unfold rowNameOk at h
  simp only [Bool.and_eq_true] at h
  refine ⟨by simpa using h.1.1.1.1.1, h.1.1.1.1.2, h.1.1.1.2,
    by simpa using h.1.1.2, by simpa using h.1.2, ?_⟩
  intro c hc habs
  have := h.2
  rw [hc] at this
  rcases habs with h3 | h3 | h3 <;> subst h3 <;> simp at this

theorem blockNameOk_spec (b : Bytes) (h : blockNameOk b = true) :
    b ≠ [] ∧ noMeta b = true ∧ trimmedTok b = true := by
  unfold blockNameOk at h
  simp only [Bool.and_eq_true] at h
  exact ⟨by simpa using h.1.1, h.1.2, h.2⟩

theorem mem_colsBody (cols : List (Bytes × Bytes)) (c' : Char)
    (h : c' ∈ colsBody cols) :
    c' = '=' ∨ c' = ';' ∨ c' = ' ' ∨ ∃ w ∈ cols, c' ∈ w.1 ∨ c' ∈ w.2 := by
  induction cols with
  | nil => simp [colsBody] at h
  | cons p rest ih =>
    cases rest with
    | nil =>
      rw [show colsBody [p] = p.1 ++ '=' :: p.2 ++ [';'] from rfl] at h
      simp only [List.mem_append, List.mem_cons, List.mem_singleton] at h
      rcases h with (h | h | h) | (h | h)
      · exact Or.inr (Or.inr (Or.inr ⟨p, List.mem_cons_self p [], Or.inl h⟩))
      · exact Or.inl h
      · exact Or.inr (Or.inr (Or.inr ⟨p, List.mem_cons_self p [], Or.inr h⟩))
      · exact Or.inr (Or.inl h)
      · exact absurd h (by simp)
    | cons q r =>
      rw [show colsBody (p :: q :: r) =
        p.1 ++ '=' :: p.2 ++ ';' :: ' ' :: colsBody (q :: r) from rfl] at h
      simp only [List.mem_append, List.mem_cons] at h
      rcases h with (h | h | h) | (h | h | h)
      · exact Or.inr (Or.inr (Or.inr ⟨p, List.mem_cons_self p _, Or.inl h⟩))
      · exact Or.inl h
      · exact Or.inr (Or.inr (Or.inr ⟨p, List.mem_cons_self p _, Or.inr h⟩))
      · exact Or.inr (Or.inl h)
      · exact Or.inr (Or.inr (Or.inl h))
      · rcases ih h with h2 | h2 | h2 | ⟨w, hw, h3⟩
        · exact Or.inl h2
        · exact Or.inr (Or.inl h2)
        · exact Or.inr (Or.inr (Or.inl h2))
        · exact Or.inr (Or.inr (Or.inr ⟨w, List.mem_cons_of_mem p hw, h3⟩))

theorem hash_not_in_colsBody (cols : List (Bytes × Bytes))
    (h : ∀ w ∈ cols, colNameOk w.1 = true ∧ valOk w.2 = true) :
    '#' ∉ colsBody cols := by
  intro hm
  rcases mem_colsBody cols '#' hm with h2 | h2 | h2 | ⟨w, hw, h3⟩
  · exact absurd h2 (by decide)
  · exact absurd h2 (by decide)
  · exact absurd h2 (by decide)
  · obtain ⟨hc, hv⟩ := h w hw
    rcases h3 with h3 | h3
    · exact (noMeta_spec _ (colNameOk_spec _ hc).2.1).1 h3
    · exact (noMeta_spec _ (valOk_spec _ hv).1).1 h3

theorem nl_not_in_colsBody (cols : List (Bytes × Bytes))
    (h : ∀ w ∈ cols, colNameOk w.1 = true ∧ valOk w.2 = true) :
    '\n' ∉ colsBody cols := by
  intro hm
  rcases mem_colsBody cols '\n' hm with h2 | h2 | h2 | ⟨w, hw, h3⟩
  · exact absurd h2 (by decide)
  · exact absurd h2 (by decide)
  · exact absurd h2 (by decide)
  · obtain ⟨hc, hv⟩ := h w hw
    rcases h3 with h3 | h3
    · exact (noMeta_spec _ (colNameOk_spec _ hc).2.1).2 h3
    · exact (noMeta_spec _ (valOk_spec _ hv).1).2 h3

theorem colsBody_head (cols : List (Bytes × Bytes)) (hne : cols ≠ [])
    (hok : ∀ w ∈ cols, colNameOk w.1 = true) :
    ∀ c, (colsBody cols).head? = some c → isBlank c = false := by
  intro c hc
  cases cols with
  | nil => exact absurd rfl hne
  | cons p rest =>
    have hp := colNameOk_spec p.1 (hok p (List.mem_cons_self p rest))
    have hhd : (colsBody (p :: rest)).head? = p.1.head? := by
      cases rest with
      | nil =>
        rw [show colsBody [p] = p.1 ++ '=' :: p.2 ++ [';'] from rfl]
        rw [show p.1 ++ '=' :: p.2 ++ [';'] = p.1 ++ ('=' :: p.2 ++ [';']) by simp]
        exact head?_append_left p.1 _ hp.1
      | cons q r =>
        rw [show colsBody (p :: q :: r) =
          p.1 ++ '=' :: p.2 ++ ';' :: ' ' :: colsBody (q :: r) from rfl]
        rw [show p.1 ++ '=' :: p.2 ++ ';' :: ' ' :: colsBody (q :: r) =
          p.1 ++ ('=' :: p.2 ++ ';' :: ' ' :: colsBody (q :: r)) by simp]
        exact head?_append_left p.1 _ hp.1
    rw [hhd] at hc
    exact trimmedTok_head p.1 hp.2.2.1 c hc

theorem rowBody_eq (q : Bytes × CfgRow) (h : q.2.cols ≠ []) :
    rowBody q = '\t' :: ((q.1 ++ '\t' :: ':' :: ':' :: ' ' :: colsBody q.2.cols) ++ [' ']) := by
  unfold rowBody
  rw [colText_flatten q.2.cols h]
  simp

theorem nl_not_in_cleanRowLine (q : Bytes × CfgRow) (hq : rowOkP q) :
    '\n' ∉ cleanRowLine q := by
  obtain ⟨hr, hne, hnd, hcols⟩ := hq
  intro hm
  unfold cleanRowLine at hm
  rcases List.mem_append.mp hm with hm | hm
  · exact (noMeta_spec q.1 (rowNameOk_spec q.1 hr).2.1).2 hm
  · rcases List.mem_cons.mp hm with hm | hm
    · exact absurd hm (by decide)
    · rcases List.mem_cons.mp hm with hm | hm
      · exact absurd hm (by decide)
      · rcases List.mem_cons.mp hm with hm | hm
        · exact absurd hm (by decide)
        · rcases List.mem_cons.mp hm with hm | hm
          · exact absurd hm (by decide)
          · exact nl_not_in_colsBody q.2.cols hcols hm

theorem nl_not_in_rowBody (q : Bytes × CfgRow) (hq : rowOkP q) :
    '\n' ∉ rowBody q := by
  rw [rowBody_eq q hq.2.1]
  intro hm
  rcases List.mem_cons.mp hm with hm | hm
  · exact absurd hm (by decide)
  · rcases List.mem_append.mp hm with hm | hm
    · exact nl_not_in_cleanRowLine q hq (by
        unfold cleanRowLine
        exact hm)
    · rcases List.mem_singleton.mp hm with hm2
      exact absurd hm2 (by decide)

theorem cleanLine_rowBody (q : Bytes × CfgRow) (hq : rowOkP q) :
    cleanLine (rowBody q) = cleanRowLine q := by
  obtain ⟨hr, hne, hnd, hcols⟩ := hq
  have hrs := rowNameOk_spec q.1 hr
  have hhash : '#' ∉ (q.1 ++ '\t' :: ':' :: ':' :: ' ' :: colsBody q.2.cols) := by
    intro hm
    rcases List.mem_append.mp hm with hm | hm
    · exact (noMeta_spec q.1 hrs.2.1).1 hm
    · rcases List.mem_cons.mp hm with hm | hm
      · exact absurd hm (by decide)
      · rcases List.mem_cons.mp hm with hm | hm
        · exact absurd hm (by decide)
        · rcases List.mem_cons.mp hm with hm | hm
          · exact absurd hm (by decide)
          · rcases List.mem_cons.mp hm with hm | hm
            · exact absurd hm (by decide)
            · exact hash_not_in_colsBody q.2.cols hcols hm
  rw [rowBody_eq q hne]
  rw [cleanLine_cons_blank '\t' _ (by decide) (by decide)]
  rw [cleanLine_append_blank _ ' ' (by decide) (by decide) hhash]
  exact cleanLine_eq_self _ hhash
    (fun c hc => by
      rw [head?_append_left q.1 _ hrs.1] at hc
      exact trimmedTok_head q.1 hrs.2.2.1 c hc)
    (fun c hc => by
      rw [getLast?_append_right q.1 _ ';' (by
        rw [show ('\t' :: ':' :: ':' :: ' ' :: colsBody q.2.cols : Bytes) =
          ['\t', ':', ':', ' '] ++ colsBody q.2.cols from rfl]
        exact getLast?_append_right _ _ ';' (colsBody_getLast q.2.cols hne))] at hc
      injection hc with hc2
      subst hc2
      decide)

theorem cleanLine_of_colNameOk (k : Bytes) (hk : colNameOk k = true) :
    cleanLine k = k := by
  have hs := colNameOk_spec k hk
  exact cleanLine_eq_self k (noMeta_spec k hs.2.1).1
    (trimmedTok_head k hs.2.2.1) (trimmedTok_last k hs.2.2.1)

theorem cleanLine_of_valOk (v : Bytes) (hv : valOk v = true) :
    cleanLine v = v := by
  have hs := valOk_spec v hv
  exact cleanLine_eq_self v (noMeta_spec v hs.1).1
    (trimmedTok_head v hs.2.1) (trimmedTok_last v hs.2.1)

theorem colStep_pair (acc : List (Bytes × Bytes)) (k v : Bytes)
    (hk : colNameOk k = true) (hv : valOk v = true) :
    colStep acc (k ++ '=' :: v) = alInsert acc k v := by
  have hs := colNameOk_spec k hk
  unfold colStep
  rw [goSplitN2_sep_append k v '=' hs.2.2.2.1]
  dsimp only
  rw [cleanLine_of_colNameOk k hk]
  rw [if_neg (by
    cases hsk : k with
    | nil => exact absurd hsk hs.1
    | cons a t => simp)]
  rw [cleanLine_of_valOk v hv]

theorem colStep_pair_sp (acc : List (Bytes × Bytes)) (k v : Bytes)
    (hk : colNameOk k = true) (hv : valOk v = true) :
    colStep acc (' ' :: (k ++ '=' :: v)) = alInsert acc k v := by
  have hs := colNameOk_spec k hk
  unfold colStep
  rw [show (' ' :: (k ++ '=' :: v) : Bytes) = (' ' :: k) ++ '=' :: v from rfl]
  rw [goSplitN2_sep_append (' ' :: k) v '=' (by
    intro hm
    rcases List.mem_cons.mp hm with hm | hm
    · exact absurd hm (by decide)
    · exact hs.2.2.2.1 hm)]
  dsimp only
  rw [cleanLine_cons_blank ' ' k (by decide) (by decide), cleanLine_of_colNameOk k hk]
  rw [if_neg (by
    cases hsk : k with
    | nil => exact absurd hsk hs.1
    | cons a t => simp)]
  rw [cleanLine_of_valOk v hv]

theorem colsFold_sp (cols : List (Bytes × Bytes))
    (hok : ∀ w ∈ cols, colNameOk w.1 = true ∧ valOk w.2 = true)
    (acc : List (Bytes × Bytes)) :
    (goSplitOn ';' (' ' :: colsBody cols)).foldl colStep acc =
      cols.foldl (fun a p => alInsert a p.1 p.2) acc := by
  induction cols generalizing acc with
  | nil => rfl
  | cons p rest ih =>
    have hp := hok p (List.mem_cons_self p rest)
    have hpn := colNameOk_spec p.1 hp.1
    have hpv := valOk_spec p.2 hp.2
    have hnosemi : ';' ∉ (' ' :: (p.1 ++ '=' :: p.2)) := by
      intro hm
      rcases List.mem_cons.mp hm with hm | hm
      · exact absurd hm (by decide)
      · rcases List.mem_append.mp hm with hm | hm
        · exact hpn.2.2.2.2 hm
        · rcases List.mem_cons.mp hm with hm | hm
          · exact absurd hm (by decide)
          · exact hpv.2.2 hm
    cases rest with
    | nil =>
      rw [show (' ' :: colsBody [p] : Bytes) =
        (' ' :: (p.1 ++ '=' :: p.2)) ++ ';' :: [] from by
          show ' ' :: colsBody [p] = ' ' :: ((p.1 ++ '=' :: p.2) ++ [';'])
          rw [show colsBody [p] = p.1 ++ '=' :: p.2 ++ [';'] from rfl]]
      rw [goSplitOn_sep_append ';' _ [] hnosemi]
      rw [List.foldl_cons]
      rw [show colStep acc (' ' :: (p.1 ++ '=' :: p.2)) = alInsert acc p.1 p.2 from
        colStep_pair_sp acc p.1 p.2 hp.1 hp.2]
      rfl
    | cons w r =>
      rw [show (' ' :: colsBody (p :: w :: r) : Bytes) =
        (' ' :: (p.1 ++ '=' :: p.2)) ++ ';' :: (' ' :: colsBody (w :: r)) from by
          rw [show colsBody (p :: w :: r) =
            p.1 ++ '=' :: p.2 ++ ';' :: ' ' :: colsBody (w :: r) from rfl]
          simp]
      rw [goSplitOn_sep_append ';' _ _ hnosemi]
      rw [List.foldl_cons]
      rw [show colStep acc (' ' :: (p.1 ++ '=' :: p.2)) = alInsert acc p.1 p.2 from
        colStep_pair_sp acc p.1 p.2 hp.1 hp.2]
      rw [ih (fun ww hw => hok ww (List.mem_cons_of_mem p hw)) _]
      rfl

theorem colsFold (cols : List (Bytes × Bytes)) (hne : cols ≠ [])
    (hok : ∀ w ∈ cols, colNameOk w.1 = true ∧ valOk w.2 = true)
    (acc : List (Bytes × Bytes)) :
    (goSplitOn ';' (colsBody cols)).foldl colStep acc =
      cols.foldl (fun a p => alInsert a p.1 p.2) acc := by
  cases cols with
  | nil => exact absurd rfl hne
  | cons p rest =>
    have hp := hok p (List.mem_cons_self p rest)
    have hpn := colNameOk_spec p.1 hp.1
    have hpv := valOk_spec p.2 hp.2
    have hnosemi : ';' ∉ (p.1 ++ '=' :: p.2) := by
      intro hm
      rcases List.mem_append.mp hm with hm | hm
      · exact hpn.2.2.2.2 hm
      · rcases List.mem_cons.mp hm with hm | hm
        · exact absurd hm (by decide)
        · exact hpv.2.2 hm
    cases rest with
    | nil =>
      rw [show (colsBody [p] : Bytes) = (p.1 ++ '=' :: p.2) ++ ';' :: [] from by
        rw [show colsBody [p] = p.1 ++ '=' :: p.2 ++ [';'] from rfl]]
      rw [goSplitOn_sep_append ';' _ [] hnosemi]
      rw [List.foldl_cons]
      rw [show colStep acc (p.1 ++ '=' :: p.2) = alInsert acc p.1 p.2 from
        colStep_pair acc p.1 p.2 hp.1 hp.2]
      rfl
    | cons w r =>
      rw [show (colsBody (p :: w :: r) : Bytes) =
        (p.1 ++ '=' :: p.2) ++ ';' :: (' ' :: colsBody (w :: r)) from by
          rw [show colsBody (p :: w :: r) =
            p.1 ++ '=' :: p.2 ++ ';' :: ' ' :: colsBody (w :: r) from rfl]]
      rw [goSplitOn_sep_append ';' _ _ hnosemi]
      rw [List.foldl_cons]
      rw [show colStep acc (p.1 ++ '=' :: p.2) = alInsert acc p.1 p.2 from
        colStep_pair acc p.1 p.2 hp.1 hp.2]
      rw [colsFold_sp (w :: r) (fun ww hw => hok ww (List.mem_cons_of_mem p hw)) _]
      rfl

theorem foldl_alInsert_fresh (cols : List (Bytes × Bytes)) :
    ∀ acc, (cols.map Prod.fst).Nodup →
    (∀ w ∈ cols, alFind? acc w.1 = none) →
    cols.foldl (fun a p => alInsert a p.1 p.2) acc = acc ++ cols := by
  induction cols with
  | nil => intro acc _ _; simp
  | cons p rest ih =>
    intro acc hnd hfr
    rw [List.map_cons, List.nodup_cons] at hnd
    rw [List.foldl_cons]
    rw [alInsert_fresh_append acc p.1 p.2 (hfr p (List.mem_cons_self p rest))]
    rw [ih (acc ++ [(p.1, p.2)]) hnd.2 (fun w hw => by
      rw [alFind?_append]
      rw [hfr w (List.mem_cons_of_mem p hw)]
      show alFind? [(p.1, p.2)] w.1 = none
      unfold alFind?
      rw [if_neg (fun habs => hnd.1 (List.mem_map.mpr ⟨w, hw, habs.symm⟩))]
      rfl)]
    simp

theorem hash_not_in_cleanRowLine (q : Bytes × CfgRow) (hq : rowOkP q) :
    '#' ∉ cleanRowLine q := by
  obtain ⟨hr, hne, hnd, hcols⟩ := hq
  intro hm
  unfold cleanRowLine at hm
  rcases List.mem_append.mp hm with hm | hm
  · exact (noMeta_spec q.1 (rowNameOk_spec q.1 hr).2.1).1 hm
  · rcases List.mem_cons.mp hm with hm | hm
    · exact absurd hm (by decide)
    · rcases List.mem_cons.mp hm with hm | hm
      · exact absurd hm (by decide)
      · rcases List.mem_cons.mp hm with hm | hm
        · exact absurd hm (by decide)
        · rcases List.mem_cons.mp hm with hm | hm
          · exact absurd hm (by decide)
          · exact hash_not_in_colsBody q.2.cols hcols hm

theorem cleanRowLine_head (q : Bytes × CfgRow) (hq : rowOkP q) :
    (cleanRowLine q).head? = q.1.head? := by
  unfold cleanRowLine
  exact head?_append_left q.1 _ (rowNameOk_spec q.1 hq.1).1

theorem cleanRowLine_last (q : Bytes × CfgRow) (hq : rowOkP q) :
    (cleanRowLine q).getLast? = some ';' := by
  unfold cleanRowLine
  refine getLast?_append_right q.1 _ ';' ?_
  rw [show ('\t' :: ':' :: ':' :: ' ' :: colsBody q.2.cols : Bytes) =
    ['\t', ':', ':', ' '] ++ colsBody q.2.cols from rfl]
  exact getLast?_append_right _ _ ';' (colsBody_getLast q.2.cols hq.2.1)

theorem cleanLine_cleanRowLine (q : Bytes × CfgRow) (hq : rowOkP q) :
    cleanLine (cleanRowLine q) = cleanRowLine q := by
  refine cleanLine_eq_self _ (hash_not_in_cleanRowLine q hq) ?_ ?_
  · intro c hc
    rw [cleanRowLine_head q hq] at hc
    exact trimmedTok_head q.1 (rowNameOk_spec q.1 hq.1).2.2.1 c hc
  · intro c hc
    rw [cleanRowLine_last q hq] at hc
    injection hc with hc2
    subst hc2
    decide

theorem finishRow_fresh (cfg : CfgBlock) (name data : Bytes) (add : Bool)
    (h : alFind? cfg.rows name = none) :
    finishRow cfg name data add =
      (cfg.setRows (alInsert cfg.rows name
        ⟨name, (goSplitOn ';' data).foldl colStep []⟩), name) := by
  unfold finishRow
  rw [h]

theorem loadRow_fresh (cfg : CfgBlock) (q : Bytes × CfgRow) (hq : rowOkP q)
    (hfresh : alFind? cfg.rows q.1 = none) :
    loadRow cfg (cleanRowLine q) [] =
      (cfg.setRows (alInsert cfg.rows q.1 ⟨q.1, q.2.cols⟩), q.1) := by
  obtain ⟨hr, hne, hnd, hcols⟩ := hq
  have hrs := rowNameOk_spec q.1 hr
  unfold loadRow
  rw [if_pos (by simp)]
  rw [cleanLine_cleanRowLine q ⟨hr, hne, hnd, hcols⟩]
  unfold goIndex
  rw [show cleanRowLine q =
    q.1 ++ '\t' :: ':' :: ':' :: ' ' :: colsBody q.2.cols from rfl]
  rw [goIndexAux_rowline_new q.1 (colsBody q.2.cols) hrs.2.2.2.1]
  have htake : cleanLine ((q.1 ++ '\t' :: ':' :: ':' :: ' ' :: colsBody q.2.cols).take
      ((q.1.length + 1 : Nat) : Int).toNat) = q.1 := by
    rw [Int.toNat_natCast]
    rw [List.take_append_eq_append_take]
    rw [List.take_of_length_le (by omega)]
    rw [show q.1.length + 1 - q.1.length = 1 from by omega]
    rw [show ('\t' :: ':' :: ':' :: ' ' :: colsBody q.2.cols).take 1 = ['\t'] from rfl]
    rw [cleanLine_append_blank q.1 '\t' (by decide) (by decide)
      (noMeta_spec q.1 hrs.2.1).1]
    exact cleanLine_eq_self q.1 (noMeta_spec q.1 hrs.2.1).1
      (trimmedTok_head q.1 hrs.2.2.1) (trimmedTok_last q.1 hrs.2.2.1)
  have hdrop : cleanLine ((q.1 ++ '\t' :: ':' :: ':' :: ' ' :: colsBody q.2.cols).drop
      (((q.1.length + 1 : Nat) : Int).toNat + 2)) = colsBody q.2.cols := by
    rw [Int.toNat_natCast]
    rw [List.drop_append_eq_append_drop]
    rw [List.drop_of_length_le (by omega)]
    rw [show q.1.length + 1 + 2 - q.1.length = 3 from by omega]
    rw [show ('\t' :: ':' :: ':' :: ' ' :: colsBody q.2.cols).drop 3 =
      ' ' :: colsBody q.2.cols from rfl]
    rw [List.nil_append]
    rw [cleanLine_cons_blank ' ' _ (by decide) (by decide)]
    exact cleanLine_eq_self _ (hash_not_in_colsBody q.2.cols hcols)
      (colsBody_head q.2.cols hne (fun w hw => (hcols w hw).1))
      (fun c hc => by
        rw [colsBody_getLast q.2.cols hne] at hc
        injection hc with hc2
        subst hc2
        decide)
  have hfold : (goSplitOn ';' (colsBody q.2.cols)).foldl colStep [] = q.2.cols := by
    rw [colsFold q.2.cols hne hcols []]
    rw [foldl_alInsert_fresh q.2.cols [] hnd (fun w hw => rfl)]
    rfl
  cases hadd : goIndexAux "+=".data
      (q.1 ++ '\t' :: ':' :: ':' :: ' ' :: colsBody q.2.cols) with
  | none =>
    dsimp only
    rw [if_neg (by
      rintro ⟨h1, h2⟩
      omega)]
    rw [if_neg (by omega)]
    rw [if_pos (by
      have : (0 : Int) < ((q.1.length + 1 : Nat) : Int) := by
        exact_mod_cast Nat.succ_pos q.1.length
      exact this)]
    rw [htake, hdrop]
    rw [finishRow_fresh cfg q.1 (colsBody q.2.cols) false hfresh]
    rw [hfold]
  | some k =>
    have hk := goIndexAux_rowline_add q.1 (colsBody q.2.cols) hrs.2.2.2.2.1 k hadd
    dsimp only
    rw [if_pos ⟨by
      exact_mod_cast Nat.zero_le (q.1.length + 1), by
      exact_mod_cast (by omega : 0 < k)⟩]
    rw [if_neg (by
      intro habs
      have h2 : k < q.1.length + 1 := by exact_mod_cast habs
      omega)]
    rw [htake, hdrop]
    rw [finishRow_fresh cfg q.1 (colsBody q.2.cols) true hfresh]
    rw [hfold]

theorem lineIsInclude_false_head (c : Char) (t : Bytes) (h : c ≠ '%') :
    lineIsInclude (c :: t) = false := by
  unfold lineIsInclude
  have hne : (c :: t).take 8 ≠ "%include".data := by
    intro hEq
    rw [List.take_succ_cons] at hEq
    injection hEq with h1 _
    exact h h1
  rw [decide_eq_false hne, Bool.and_false]

theorem lineIsBlockEnd_false_head (c : Char) (t : Bytes) (h : c ≠ '\x7d') :
    lineIsBlockEnd (c :: t) = false := by
  unfold lineIsBlockEnd
  simp [h]

theorem lineIsBlockNew_false_head (c : Char) (t : Bytes) (h1 : c ≠ ' ')
    (h2 : c ≠ '%') : lineIsBlockNew (c :: t) = false := by
  unfold lineIsBlockNew
  rw [goSplitN2.eq_def]
  dsimp only
  rw [if_neg h1]
  cases hy : (goSplitN2 t ' ').2 with
  | none => rfl
  | some p1 =>
    have hne : goToLower (c :: (goSplitN2 t ' ').1) ≠ "%block".data := by
      intro hEq
      unfold goToLower at hEq
      rw [List.map_cons] at hEq
      injection hEq with hh _
      exact h2 (toLower_percent c hh)
    simp [hne]

theorem rowText_eq_body (q : Bytes × CfgRow) : rowText q = rowBody q ++ ['\n'] := by
  unfold rowText rowBody
  simp

theorem hasSeq_of_isPrefixOf (pat : Bytes) (l : Bytes)
    (h : pat.isPrefixOf l = true) : hasSeq pat l = true := by
  cases l with
  | nil =>
    unfold hasSeq goIndexAux
    cases pat with
    | nil => simp
    | cons a t => simp [List.isPrefixOf] at h
  | cons c t =>
    unfold hasSeq
    rw [goIndexAux, if_pos h]
    rfl

theorem loadStream_rowline (fs : Bytes → Option Bytes) (home fname : Bytes)
    (fuel : Nat) (cfg : CfgBlock) (rest : List Bytes) (prev : Bytes)
    (q : Bytes × CfgRow) (hq : rowOkP q)
    (hfresh : alFind? cfg.rows q.1 = none) :
    loadStream fs home (fuel + 1) fname cfg (rowText q :: rest) prev =
      loadStream fs home fuel fname
        (cfg.setRows (alInsert cfg.rows q.1 ⟨q.1, q.2.cols⟩)) rest q.1 := by
  have hrs := rowNameOk_spec q.1 hq.1
  obtain ⟨a, t', hat⟩ : ∃ a t', q.1 = a :: t' := by
    cases hq1 : q.1 with
    | nil => exact absurd hq1 hrs.1
    | cons a t' => exact ⟨a, t', rfl⟩
  have hhead : (cleanRowLine q).head? = some a := by
    rw [cleanRowLine_head q hq, hat]
    rfl
  have hcrl : ∃ t2, cleanRowLine q = a :: t2 := by
    cases hc : cleanRowLine q with
    | nil => rw [hc] at hhead; exact absurd hhead (by simp)
    | cons x t2 =>
      rw [hc] at hhead
      injection hhead with hx
      exact ⟨t2, by rw [hx]⟩
  obtain ⟨t2, ht2⟩ := hcrl
  have hapct : a ≠ '%' ∧ a ≠ '\x7b' ∧ a ≠ '\x7d' := by
    refine ⟨?_, ?_, ?_⟩ <;>
      exact fun habs => hrs.2.2.2.2.2 a (by rw [hat]; rfl) (by simp [habs])
  have hablank : isBlank a = false :=
    trimmedTok_head q.1 hrs.2.2.1 a (by rw [hat]; rfl)
  have haspace : a ≠ ' ' := by
    intro habs
    rw [habs] at hablank
    exact absurd hablank (by decide)
  rw [loadStream]
  rw [if_neg (by
    rw [rowText_eq_body]
    simp)]
  rw [show (rowText q).dropLast = rowBody q from by
    rw [rowText_eq_body]
    exact List.dropLast_concat]
  rw [cleanLine_rowBody q hq]
  rw [if_neg (by
    rw [ht2]
    simp)]
  rw [ht2, lineIsInclude_false_head a t2 hapct.1]
  rw [if_neg (by simp)]
  rw [lineIsBlockEnd_false_head a t2 hapct.2.2]
  rw [if_neg (by simp)]
  rw [lineIsBlockNew_false_head a t2 haspace hapct.1]
  rw [if_neg (by simp)]
  rw [if_neg (by
    rintro ⟨hl, htake⟩
    rw [← ht2] at htake
    unfold cleanRowLine at htake
    rw [hat] at htake
    cases t' with
    | nil =>
      rw [show (([a] ++ '\t' :: ':' :: ':' :: ' ' :: colsBody q.2.cols).take 2 : Bytes) =
        [a, '\t'] from rfl] at htake
      injection htake with hh1 hrest
      injection hrest with hh2 _
      exact absurd hh2 (by decide)
    | cons b t'' =>
      rw [show ((a :: b :: t'' ++ '\t' :: ':' :: ':' :: ' ' :: colsBody q.2.cols).take 2 : Bytes) =
        [a, b] from rfl] at htake
      injection htake with hh1 hrest
      injection hrest with hh2 _
      subst hh1 hh2
      have : hasSeq "+=".data q.1 = true := by
        rw [hat]
        exact hasSeq_of_isPrefixOf _ _ (by simp [List.isPrefixOf])
      rw [hrs.2.2.2.2.1] at this
      exact absurd this (by decide))]
  rw [if_neg (by
    intro habs
    injection habs with hx
    exact hapct.2.1 hx)]
  rw [← ht2]
  rw [loadRow_fresh cfg q hq hfresh]

theorem loadStream_brace_skip (fs : Bytes → Option Bytes) (home fname : Bytes)
    (fuel : Nat) (cfg : CfgBlock) (chunk : Bytes) (rest : List Bytes)
    (prev : Bytes) (t : Bytes)
    (hbuf : cleanLine chunk.dropLast = '\x7b' :: t)
    (hlen : 1 ≤ chunk.length) :
    loadStream fs home (fuel + 1) fname cfg (chunk :: rest) prev =
      loadStream fs home fuel fname cfg rest prev := by
  rw [loadStream]
  rw [if_neg (by omega)]
  rw [hbuf]
  rw [if_neg (by simp)]
  have hInc : lineIsInclude ('\x7b' :: t) = false := by
    unfold lineIsInclude
    have hne : ('\x7b' :: t).take 8 ≠ "%include".data := by
      intro hEq
      rw [List.take_succ_cons] at hEq
      injection hEq with h1 h2
      exact absurd h1 (by decide)
    rw [decide_eq_false hne, Bool.and_false]
  rw [hInc]
  rw [if_neg (by simp)]
  have hEnd : lineIsBlockEnd ('\x7b' :: t) = false := by
    unfold lineIsBlockEnd
    simp
  rw [hEnd]
  rw [if_neg (by simp)]
  have hNew : lineIsBlockNew ('\x7b' :: t) = false :=
    lineIsBlockNew_false_head '\x7b' t (by decide) (by decide)
  rw [hNew]
  rw [if_neg (by simp)]
  have hTake : ¬ (2 < ('\x7b' :: t).length ∧ ('\x7b' :: t).take 2 = "+=".data) := by
    rintro ⟨h1, h2⟩
    rw [List.take_succ_cons] at h2
    injection h2 with h3 h4
    exact absurd h3 (by decide)
  rw [if_neg hTake]
  rw [if_pos (by simp)]

/-- Amended claim C7: the parser does not specially consume the line after
`%block`.  Instead (first conjunct) any line whose cleaned form begins
with `{` is skipped wherever it occurs — which is what disposes of the
conventional `{` line following a block header — and (second conjunct)
a non-brace line immediately after `%block B` is classified normally
inside the new block's scope: in `c7content` the row line that follows
the header becomes row `r` of block `B`. -/
theorem c7_amended_brace_lines_skipped_generally :
    (∀ (fs : Bytes → Option Bytes) (home fname : Bytes) (fuel : Nat)
       (cfg : CfgBlock) (chunk : Bytes) (rest : List Bytes) (prev : Bytes)
       (t : Bytes),
       cleanLine chunk.dropLast = '\x7b' :: t →
       1 ≤ chunk.length →
       loadStream fs home (fuel + 1) fname cfg (chunk :: rest) prev =
         loadStream fs home fuel fname cfg rest prev) ∧
    loadStream fsEmpty [] 49 "f".data demoRoot (readChunks c7content) [] =
      .ok (.mk "n".data "f".data []
        [("B".data, .mk "B".data "f".data
           [("r".data, ⟨"r".data, [("a".data, "1".data)]⟩)] [])], []) := by
  constructor
  · intro fs home fname fuel cfg chunk rest prev t hbuf hlen
    exact loadStream_brace_skip fs home fname fuel cfg chunk rest prev t hbuf hlen
  · rfl

/-- Witness for amended C7: a concrete indented `{ x` line is skipped. -/
theorem c7_amended_brace_lines_skipped_generally_witness :
    loadStream fsEmpty [] 6 "f".data demoRoot ["  \x7b x\n".data] [] =
      loadStream fsEmpty [] 5 "f".data demoRoot [] [] :=
  c7_amended_brace_lines_skipped_generally.1 fsEmpty [] "f".data 5 demoRoot
    "  \x7b x\n".data [] [] " x".data (by decide) (by decide)

theorem setRows_rows_self (cfg : CfgBlock) : cfg.setRows cfg.rows = cfg := by
  cases cfg
  rfl

theorem loadStream_nlchunk (fs : Bytes → Option Bytes) (home fname : Bytes)
    (fuel : Nat) (cfg : CfgBlock) (rest : List Bytes) (prev : Bytes) :
    loadStream fs home (fuel + 1) fname cfg (['\n'] :: rest) prev =
      loadStream fs home fuel fname cfg rest prev := by
  rw [loadStream]
  rw [if_neg (by decide)]
  rw [show (['\n'] : Bytes).dropLast = [] from rfl]
  rw [show cleanLine [] = [] from rfl]
  rw [if_pos (by decide)]

theorem loadStream_closechunk (fs : Bytes → Option Bytes) (home fname : Bytes)
    (fuel : Nat) (cfg : CfgBlock) (rest : List Bytes) (prev : Bytes) :
    loadStream fs home (fuel + 1) fname cfg (['\x7d', '\n'] :: rest) prev =
      .ok (cfg, rest) := by
  rw [loadStream]
  rw [if_neg (by decide)]
  rw [show (['\x7d', '\n'] : Bytes).dropLast = ['\x7d'] from rfl]
  rw [show cleanLine ['\x7d'] = ['\x7d'] from rfl]
  rw [if_neg (by decide)]
  rw [show lineIsInclude ['\x7d'] = false from rfl]
  rw [if_neg (by simp)]
  rw [show lineIsBlockEnd ['\x7d'] = true from rfl]
  rw [if_pos rfl]

theorem goSplitN2_blockheader (b : Bytes) :
    goSplitN2 ("%block ".data ++ b) ' ' = ("%block".data, some b) := rfl

theorem cleanLine_blockheader (b : Bytes) (hb : blockNameOk b = true) :
    cleanLine ("%block ".data ++ b) = "%block ".data ++ b := by
  have hs := blockNameOk_spec b hb
  refine cleanLine_eq_self _ ?_ ?_ ?_
  · intro hm
    rcases List.mem_append.mp hm with hm | hm
    · exact absurd hm (by decide)
    · exact (noMeta_spec b hs.2.1).1 hm
  · intro c hc
    rw [show ("%block ".data ++ b).head? = some '%' from rfl] at hc
    injection hc with h2
    subst h2
    decide
  · intro c hc
    cases hbl : b.getLast? with
    | none =>
      exact absurd (List.getLast?_eq_none_iff.mp hbl) hs.1
    | some d =>
      rw [getLast?_append_right _ b d hbl] at hc
      injection hc with h2
      subst h2
      exact trimmedTok_last b hs.2.2 d hbl

theorem lineIsInclude_blockheader (b : Bytes) :
    lineIsInclude ("%block ".data ++ b) = false := by
  unfold lineIsInclude
  have hne : ("%block ".data ++ b).take 8 ≠ "%include".data := by
    intro hEq
    rw [show ("%block ".data ++ b).take 8 = '%' :: 'b' :: ("lock ".data ++ b).take 6 from by
      simp] at hEq
    injection hEq with h1 hrest
    injection hrest with h2 _
    exact absurd h2 (by decide)
  rw [decide_eq_false hne, Bool.and_false]

theorem lineIsBlockNew_blockheader (b : Bytes) :
    lineIsBlockNew ("%block ".data ++ b) = true := by
  unfold lineIsBlockNew
  rw [goSplitN2_blockheader b]
  dsimp only
  rw [show goToLower "%block".data = "%block".data from rfl]
  simp

theorem getBlockname_blockheader (b : Bytes) (hb : blockNameOk b = true) :
    getBlockname ("%block ".data ++ b) = b := by
  have hs := blockNameOk_spec b hb
  unfold getBlockname
  rw [goSplitN2_blockheader b]
  dsimp only
  rw [if_pos (show goToLower "%block".data = "%block".data from rfl)]
  exact cleanLine_eq_self b (noMeta_spec b hs.2.1).1
    (trimmedTok_head b hs.2.2) (trimmedTok_last b hs.2.2)

theorem loadStream_header (fs : Bytes → Option Bytes) (home fname : Bytes)
    (b : Bytes) (hb : blockNameOk b = true) (fuel : Nat) (cfg : CfgBlock)
    (rest : List Bytes) (prev : Bytes) :
    loadStream fs home (fuel + 1) fname cfg
      (("%block ".data ++ b ++ ['\n']) :: rest) prev =
      match loadStream fs home fuel fname (.mk b fname [] []) rest [] with
      | .error e => .error e
      | .ok (child, rest2) =>
        loadStream fs home fuel fname
          (cfg.setTbls (alInsert cfg.tbls b child)) rest2 prev := by
  rw [loadStream]
  rw [if_neg (by simp)]
  rw [show ("%block ".data ++ b ++ ['\n']).dropLast = "%block ".data ++ b from
    List.dropLast_concat]
  rw [cleanLine_blockheader b hb]
  rw [if_neg (by simp)]
  rw [lineIsInclude_blockheader b]
  rw [if_neg (by simp)]
  rw [show lineIsBlockEnd ("%block ".data ++ b) = false from rfl]
  rw [if_neg (by simp)]
  rw [lineIsBlockNew_blockheader b]
  rw [if_pos rfl]
  rw [getBlockname_blockheader b hb]

theorem loadStream_rows (fs : Bytes → Option Bytes) (home fname : Bytes)
    (rows : List (Bytes × CfgRow)) :
    ∀ (n : Nat) (cfg : CfgBlock) (rest : List Bytes) (prev : Bytes),
    (∀ q ∈ rows, rowOkP q) → (rows.map Prod.fst).Nodup →
    (∀ q ∈ rows, alFind? cfg.rows q.1 = none) →
    loadStream fs home (n + rows.length) fname cfg (rows.map rowText ++ rest) prev =
      loadStream fs home n fname (cfg.setRows (cfg.rows ++ rows.map loadedRow)) rest
        ((rows.map Prod.fst).getLastD prev) := by
  induction rows with
  | nil =>
    intro n cfg rest prev _ _ _
    simp only [List.map_nil, List.nil_append, List.length_nil, Nat.add_zero,
      List.append_nil, List.getLastD_nil]
    rw [setRows_rows_self]
  | cons q rows' ih =>
    intro n cfg rest prev hok hnd hfr
    rw [List.map_cons, List.nodup_cons] at hnd
    rw [List.map_cons, List.cons_append]
    rw [show n + (q :: rows').length = (n + rows'.length) + 1 from by
      simp [List.length_cons]
      omega]
    rw [loadStream_rowline fs home fname (n + rows'.length) cfg _ prev q
      (hok q (List.mem_cons_self q rows')) (hfr q (List.mem_cons_self q rows'))]
    rw [ih n _ rest q.1
      (fun w hw => hok w (List.mem_cons_of_mem q hw)) hnd.2
      (fun w hw => by
        rw [rows_setRows]
        rw [alInsert_fresh_append cfg.rows q.1 _ (hfr q (List.mem_cons_self q rows'))]
        rw [alFind?_append]
        rw [hfr w (List.mem_cons_of_mem q hw)]
        show alFind? [(q.1, (⟨q.1, q.2.cols⟩ : CfgRow))] w.1 = none
        unfold alFind?
        rw [if_neg (fun habs => hnd.1 (List.mem_map.mpr ⟨w, hw, habs.symm⟩))]
        rfl)]
    rw [rows_setRows, setRows_setRows]
    rw [alInsert_fresh_append cfg.rows q.1 _ (hfr q (List.mem_cons_self q rows'))]
    rw [List.append_assoc]
    rw [show ([(q.1, (⟨q.1, q.2.cols⟩ : CfgRow))] ++ rows'.map loadedRow : List (Bytes × CfgRow)) =
      (q :: rows').map loadedRow from by
        rw [List.map_cons]
        rfl]
    rw [show ((q :: rows').map Prod.fst).getLastD prev =
      (rows'.map Prod.fst).getLastD q.1 from by
        rw [List.map_cons]
        exact List.getLastD_cons q.1 _ _]

theorem loadStream_block (fs : Bytes → Option Bytes) (home fname : Bytes)
    (p : Bytes × CfgBlock) (hp : blockOkP p) (n : Nat) (cfg : CfgBlock)
    (rest : List Bytes) (prev : Bytes) :
    loadStream fs home (n + p.2.rows.length + 5) fname cfg
      (blockChunks p ++ rest) prev =
      loadStream fs home (n + p.2.rows.length + 3) fname
        (cfg.setTbls (alInsert cfg.tbls p.1
          (.mk p.1 fname (p.2.rows.map loadedRow) []))) rest prev := by
  obtain ⟨hb, hnd, hrows⟩ := hp
  rw [show blockChunks p ++ rest =
    ['\n'] :: (("%block ".data ++ p.1 ++ ['\n']) ::
      (['\x7b', '\n'] :: (p.2.rows.map rowText ++
        (['\n'] :: (['\x7d', '\n'] :: rest))))) from by
    unfold blockChunks
    simp]
  rw [show n + p.2.rows.length + 5 = (n + p.2.rows.length + 4) + 1 from by omega]
  rw [loadStream_nlchunk]
  rw [show n + p.2.rows.length + 4 = (n + p.2.rows.length + 3) + 1 from by omega]
  rw [loadStream_header fs home fname p.1 hb]
  have hchild : loadStream fs home (n + p.2.rows.length + 3) fname
      (.mk p.1 fname [] [])
      (['\x7b', '\n'] :: (p.2.rows.map rowText ++
        (['\n'] :: (['\x7d', '\n'] :: rest)))) [] =
      .ok (.mk p.1 fname (p.2.rows.map loadedRow) [], rest) := by
    rw [show n + p.2.rows.length + 3 = (n + p.2.rows.length + 2) + 1 from by omega]
    rw [loadStream_brace_skip fs home fname _ _ ['\x7b', '\n'] _ [] []
      (by rfl) (by decide)]
    rw [show n + p.2.rows.length + 2 = (n + 2) + p.2.rows.length from by omega]
    rw [loadStream_rows fs home fname p.2.rows (n + 2) (.mk p.1 fname [] [])
      (['\n'] :: (['\x7d', '\n'] :: rest)) [] hrows hnd (fun w hw => rfl)]
    rw [show ((CfgBlock.mk p.1 fname [] []).setRows
      ((CfgBlock.mk p.1 fname [] []).rows ++ p.2.rows.map loadedRow)) =
      .mk p.1 fname (p.2.rows.map loadedRow) [] from rfl]
    rw [show n + 2 = (n + 1) + 1 from by omega]
    rw [loadStream_nlchunk]
    rw [loadStream_closechunk]
  rw [hchild]

theorem setTbls_tbls_self (cfg : CfgBlock) : cfg.setTbls cfg.tbls = cfg := by
  cases cfg
  rfl

theorem loadStream_writeblocks (fs : Bytes → Option Bytes) (home fname : Bytes)
    (tbls : List (Bytes × CfgBlock)) :
    ∀ (m : Nat) (cfg : CfgBlock) (prev : Bytes),
    (∀ p ∈ tbls, blockOkP p) → (tbls.map Prod.fst).Nodup →
    (∀ p ∈ tbls, alFind? cfg.tbls p.1 = none) →
    loadStream fs home (m + (tbls.map blockFuel).sum + 2) fname cfg
      ((tbls.map blockChunks).flatten ++ [[]]) prev =
      .ok (cfg.setTbls (cfg.tbls ++ tbls.map (loadedBlock fname)), []) := by
  induction tbls with
  | nil =>
    intro m cfg prev _ _ _
    simp only [List.map_nil, List.flatten_nil, List.nil_append, List.sum_nil,
      Nat.add_zero, List.append_nil]
    rw [setTbls_tbls_self]
    exact loadStream_emptychunk fs home fname m cfg prev
  | cons p tbls' ih =>
    intro m cfg prev hok hnd hfr
    rw [List.map_cons, List.nodup_cons] at hnd
    rw [show ((p :: tbls').map blockChunks).flatten ++ [[]] =
      blockChunks p ++ ((tbls'.map blockChunks).flatten ++ [[]]) from by
        rw [List.map_cons, List.flatten_cons, List.append_assoc]]
    rw [show m + ((p :: tbls').map blockFuel).sum + 2 =
      (m + (tbls'.map blockFuel).sum + 2) + p.2.rows.length + 5 from by
        rw [List.map_cons, List.sum_cons]
        unfold blockFuel
        omega]
    rw [loadStream_block fs home fname p (hok p (List.mem_cons_self p tbls'))
      (m + (tbls'.map blockFuel).sum + 2) cfg _ prev]
    rw [show (m + (tbls'.map blockFuel).sum + 2) + p.2.rows.length + 3 =
      (m + p.2.rows.length + 3) + (tbls'.map blockFuel).sum + 2 from by omega]
    rw [ih (m + p.2.rows.length + 3) _ prev
      (fun w hw => hok w (List.mem_cons_of_mem p hw)) hnd.2
      (fun w hw => by
        rw [tbls_setTbls]
        rw [alInsert_fresh_append cfg.tbls p.1 _ (hfr p (List.mem_cons_self p tbls'))]
        rw [alFind?_append]
        rw [hfr w (List.mem_cons_of_mem p hw)]
        show alFind? [(p.1, CfgBlock.mk p.1 fname (p.2.rows.map loadedRow) [])] w.1 = none
        unfold alFind?
        rw [if_neg (fun habs => hnd.1 (List.mem_map.mpr ⟨w, hw, habs.symm⟩))]
        rfl)]
    rw [tbls_setTbls, setTbls_setTbls]
    rw [alInsert_fresh_append cfg.tbls p.1 _ (hfr p (List.mem_cons_self p tbls'))]
    rw [List.append_assoc]
    rw [show ([(p.1, CfgBlock.mk p.1 fname (p.2.rows.map loadedRow) [])] ++
      tbls'.map (loadedBlock fname) : List (Bytes × CfgBlock)) =
      (p :: tbls').map (loadedBlock fname) from by
        rw [List.map_cons]
        rfl]

theorem readChunks_line (b : Bytes) (hb : '\n' ∉ b) (r2 : Bytes) :
    readChunks (b ++ '\n' :: r2) = (b ++ ['\n']) :: readChunks r2 := by
  have := readChunksAux_nl_append b r2 [] hb
  simpa [readChunks] using this

theorem readChunks_rowTexts (rows : List (Bytes × CfgRow))
    (h : ∀ q ∈ rows, rowOkP q) (r2 : Bytes) :
    readChunks ((rows.map rowText).flatten ++ r2) =
      rows.map rowText ++ readChunks r2 := by
  induction rows with
  | nil => simp
  | cons q rows' ih =>
    rw [List.map_cons, List.flatten_cons]
    rw [show rowText q ++ (rows'.map rowText).flatten ++ r2 =
      rowBody q ++ '\n' :: ((rows'.map rowText).flatten ++ r2) from by
        rw [rowText_eq_body]
        simp]
    rw [readChunks_line (rowBody q) (nl_not_in_rowBody q (h q (List.mem_cons_self q rows'))) _]
    rw [ih (fun w hw => h w (List.mem_cons_of_mem q hw))]
    rw [← rowText_eq_body]
    rfl

theorem readChunks_nlHead (r2 : Bytes) :
    readChunks ('\n' :: r2) = ['\n'] :: readChunks r2 := by
  simpa using readChunks_line [] (by simp) r2

theorem readChunks_brace (r2 : Bytes) :
    readChunks ('\x7b' :: '\n' :: r2) = ['\x7b', '\n'] :: readChunks r2 := by
  simpa using readChunks_line ['\x7b'] (by decide) r2

theorem readChunks_cbrace (r2 : Bytes) :
    readChunks ('\x7d' :: '\n' :: r2) = ['\x7d', '\n'] :: readChunks r2 := by
  simpa using readChunks_line ['\x7d'] (by decide) r2

theorem readChunks_blockText (p : Bytes × CfgBlock) (hp : blockOkP p)
    (rest : Bytes) :
    readChunks (blockText p ++ rest) = blockChunks p ++ readChunks rest := by
  have hb := blockNameOk_spec p.1 hp.1
  have hnl : '\n' ∉ p.1 := (noMeta_spec p.1 hb.2.1).2
  rw [show blockText p ++ rest =
    '\n' :: (("%block ".data ++ p.1) ++ '\n' ::
      ('\x7b' :: '\n' :: ((p.2.rows.map rowText).flatten ++
        '\n' :: '\x7d' :: '\n' :: rest))) from by
    unfold blockText
    simp]
  rw [readChunks_nlHead]
  rw [readChunks_line ("%block ".data ++ p.1) (by
    intro hm
    rcases List.mem_append.mp hm with hm | hm
    · exact absurd hm (by decide)
    · exact hnl hm) _]
  rw [readChunks_brace]
  rw [readChunks_rowTexts p.2.rows hp.2.2 _]
  rw [readChunks_nlHead, readChunks_cbrace]
  unfold blockChunks
  simp

theorem readChunks_blockTexts (l : List (Bytes × CfgBlock))
    (h : ∀ p ∈ l, blockOkP p) :
    readChunks ((l.map blockText).flatten) =
      (l.map blockChunks).flatten ++ [[]] := by
  induction l with
  | nil => rfl
  | cons p l2 ih =>
    rw [List.map_cons, List.flatten_cons]
    rw [readChunks_blockText p (h p (List.mem_cons_self p l2)) _]
    rw [ih (fun w hw => h w (List.mem_cons_of_mem p hw))]
    rw [List.map_cons, List.flatten_cons, List.append_assoc]

theorem EditEntry_eq (cfg : CfgBlock) (tb rw cl vl : Bytes) :
    cfg.EditEntry tb rw cl vl =
      (let t : CfgBlock := match alFind? cfg.tbls tb with
        | some t => t
        | none => .mk cfg.name [] [] []
      let r : CfgRow := match alFind? t.rows rw with
        | some r => r
        | none => ⟨rw, []⟩
      cfg.setTbls (alInsert cfg.tbls tb
        (t.setRows (alInsert t.rows rw ⟨r.name, alInsert r.cols cl vl⟩)))) := rfl

theorem RowClean_insert (r : CfgRow) (rw cl vl : Bytes)
    (hname : r.name = rw) (hr : rowNameOk rw = true)
    (hnd : (r.cols.map Prod.fst).Nodup)
    (hcols : ∀ w ∈ r.cols, colNameOk w.1 = true ∧ valOk w.2 = true)
    (hcl : colNameOk cl = true) (hv : valOk vl = true) :
    RowClean (rw, CfgRow.mk r.name (alInsert r.cols cl vl)) := by
  refine ⟨hname, hr, alInsert_ne_nil _ _ _, alInsert_keys_nodup _ _ _ hnd, ?_⟩
  intro w hw
  rcases alInsert_mem r.cols cl vl w hw with h | h
  · exact hcols w h
  · rw [h]
    exact ⟨hcl, hv⟩

theorem BlockClean_insert (t : CfgBlock) (tb rw cl vl : Bytes)
    (hb : blockNameOk tb = true) (htb : t.tbls = [])
    (hnd : (t.rows.map Prod.fst).Nodup)
    (hrows : ∀ q ∈ t.rows, RowClean q)
    (r : CfgRow) (hname : r.name = rw)
    (hrnd : (r.cols.map Prod.fst).Nodup)
    (hrcols : ∀ w ∈ r.cols, colNameOk w.1 = true ∧ valOk w.2 = true)
    (hr : rowNameOk rw = true) (hcl : colNameOk cl = true)
    (hv : valOk vl = true) :
    BlockClean (tb, t.setRows
      (alInsert t.rows rw (CfgRow.mk r.name (alInsert r.cols cl vl)))) := by
  refine ⟨hb, ?_, ?_, ?_⟩
  · rw [tbls_setRows]
    exact htb
  · rw [rows_setRows]
    exact alInsert_keys_nodup _ _ _ hnd
  · rw [rows_setRows]
    intro q hq
    rcases alInsert_mem t.rows rw _ q hq with h | h
    · exact hrows q h
    · rw [h]
      exact RowClean_insert r rw cl vl hname hr hrnd hrcols hcl hv

theorem TreeClean_insert (cfg : CfgBlock) (hroot : cfg.rows = [])
    (hnd : (cfg.tbls.map Prod.fst).Nodup)
    (hblocks : ∀ p ∈ cfg.tbls, BlockClean p)
    (tb : Bytes) (t2 : CfgBlock) (h2 : BlockClean (tb, t2)) :
    TreeClean (cfg.setTbls (alInsert cfg.tbls tb t2)) := by
  refine ⟨?_, ?_, ?_⟩
  · rw [rows_setTbls]
    exact hroot
  · rw [tbls_setTbls]
    exact alInsert_keys_nodup _ _ _ hnd
  · rw [tbls_setTbls]
    intro p hp
    rcases alInsert_mem cfg.tbls tb t2 p hp with h | h
    · exact hblocks p h
    · rw [h]
      exact h2

theorem EditEntry_clean (cfg : CfgBlock) (hc : TreeClean cfg)
    (tb rw cl vl : Bytes) (he : editOk (tb, rw, cl, vl) = true) :
    TreeClean (cfg.EditEntry tb rw cl vl) := by
  obtain ⟨hroot, hnd, hblocks⟩ := hc
  unfold editOk at he
  simp only [Bool.and_eq_true] at he
  obtain ⟨⟨⟨hb, hr⟩, hcl⟩, hv⟩ := he
  rw [EditEntry_eq]
  cases ht : alFind? cfg.tbls tb with
  | none =>
    dsimp only [alFind?]
    exact TreeClean_insert cfg hroot hnd hblocks tb _
      (BlockClean_insert (CfgBlock.mk cfg.name [] [] []) tb rw cl vl hb rfl
        List.nodup_nil (fun q hq => absurd hq (List.not_mem_nil q))
        ⟨rw, []⟩ rfl List.nodup_nil (fun w hw => absurd hw (List.not_mem_nil w))
        hr hcl hv)
  | some t0 =>
    obtain ⟨hb0, htb0, hnd0, hrows0⟩ := hblocks (tb, t0) (alFind?_mem cfg.tbls tb t0 ht)
    dsimp only
    cases hr2 : alFind? t0.rows rw with
    | none =>
      dsimp only
      exact TreeClean_insert cfg hroot hnd hblocks tb _
        (BlockClean_insert t0 tb rw cl vl hb htb0 hnd0 hrows0
          ⟨rw, []⟩ rfl List.nodup_nil (fun w hw => absurd hw (List.not_mem_nil w))
          hr hcl hv)
    | some r0 =>
      obtain ⟨hname0, _, _, hrnd0, hrcols0⟩ := hrows0 (rw, r0) (alFind?_mem t0.rows rw r0 hr2)
      dsimp only
      exact TreeClean_insert cfg hroot hnd hblocks tb _
        (BlockClean_insert t0 tb rw cl vl hb htb0 hnd0 hrows0
          r0 hname0 hrnd0 hrcols0 hr hcl hv)

theorem TreeClean_empty (name fname : Bytes) :
    TreeClean (CfgBlock.mk name fname [] []) :=
  ⟨rfl, List.nodup_nil, fun p hp => absurd hp (List.not_mem_nil p)⟩

theorem applyEdits_clean (edits : List (Bytes × Bytes × Bytes × Bytes)) :
    ∀ (cfg : CfgBlock), TreeClean cfg → (∀ e ∈ edits, editOk e = true) →
    TreeClean (applyEdits cfg edits) := by
  induction edits with
  | nil =>
    intro cfg hc _
    exact hc
  | cons e rest ih =>
    intro cfg hc he
    obtain ⟨tb, rw, cl, vl⟩ := e
    show TreeClean (applyEdits (cfg.EditEntry tb rw cl vl) rest)
    exact ih _ (EditEntry_clean cfg hc tb rw cl vl (he _ (List.mem_cons_self _ _)))
      (fun w hw => he w (List.mem_cons_of_mem _ hw))

theorem blockOkP_of_BlockClean (p : Bytes × CfgBlock) (h : BlockClean p) :
    blockOkP p := by
  obtain ⟨hb, _, hnd, hrows⟩ := h
  refine ⟨hb, hnd, fun q hq => ?_⟩
  obtain ⟨_, h1, h2, h3, h4⟩ := hrows q hq
  exact ⟨h1, h2, h3, h4⟩

theorem alFind?_map_loadedRow (rows : List (Bytes × CfgRow)) (k : Bytes) :
    alFind? (rows.map loadedRow) k =
      (alFind? rows k).map (fun r => CfgRow.mk k r.cols) := by
  induction rows with
  | nil => rfl
  | cons q t ih =>
    obtain ⟨k1, r1⟩ := q
    show (if k1 = k then some (CfgRow.mk k1 r1.cols)
        else alFind? (t.map loadedRow) k) =
      (if k1 = k then some r1 else alFind? t k).map (fun r => CfgRow.mk k r.cols)
    by_cases h : k1 = k
    · subst h
      rw [if_pos rfl, if_pos rfl, Option.map_some']
    · rw [if_neg h, if_neg h]
      exact ih

theorem alFind?_map_loadedBlock (l : List (Bytes × CfgBlock)) (fname k : Bytes) :
    alFind? (l.map (loadedBlock fname)) k =
      (alFind? l k).map
        (fun b => CfgBlock.mk k fname (b.rows.map loadedRow) []) := by
  induction l with
  | nil => rfl
  | cons p t ih =>
    obtain ⟨k1, b1⟩ := p
    show (if k1 = k then some (CfgBlock.mk k1 fname (b1.rows.map loadedRow) [])
        else alFind? (t.map (loadedBlock fname)) k) =
      (if k1 = k then some b1 else alFind? t k).map
        (fun b => CfgBlock.mk k fname (b.rows.map loadedRow) [])
    by_cases h : k1 = k
    · subst h
      rw [if_pos rfl, if_pos rfl, Option.map_some']
    · rw [if_neg h, if_neg h]
      exact ih

theorem NewCfg_writeback (fs : Bytes → Option Bytes) (home : Bytes)
    (t : CfgBlock) (hc : TreeClean t) (st : CfgState) (name2 path : Bytes)
    (h2 : alFind? st.cfgs name2 = none)
    (hfs : fs (expandUser home path) = some (CfgWrite t)) (m : Nat) :
    NewCfg fs home (m + writeFuel t) st name2 path =
      .ok (CfgBlock.mk name2 (expandUser home path) []
             (t.tbls.map (loadedBlock (expandUser home path))),
           ⟨alInsert st.cfgs name2 (CfgBlock.mk name2 (expandUser home path) []
             (t.tbls.map (loadedBlock (expandUser home path))))⟩) := by
  obtain ⟨hroot, hnd, hblocks⟩ := hc
  unfold NewCfg
  dsimp only
  rw [h2]
  dsimp only
  rw [hfs]
  dsimp only
  rw [show CfgWrite t = (t.tbls.map blockText).flatten from rfl]
  rw [readChunks_blockTexts t.tbls
    (fun p hp => blockOkP_of_BlockClean p (hblocks p hp))]
  rw [show m + writeFuel t = m + (t.tbls.map blockFuel).sum + 2 from by
    unfold writeFuel
    omega]
  rw [loadStream_writeblocks fs home (expandUser home path) t.tbls m
    (CfgBlock.mk name2 (expandUser home path) [] []) []
    (fun p hp => blockOkP_of_BlockClean p (hblocks p hp)) hnd
    (fun p hp => rfl)]
  rfl

theorem tbls_mk (n f : Bytes) (r : List (Bytes × CfgRow))
    (t : List (Bytes × CfgBlock)) : (CfgBlock.mk n f r t).tbls = t := rfl

theorem rows_mk (n f : Bytes) (r : List (Bytes × CfgRow))
    (t : List (Bytes × CfgBlock)) : (CfgBlock.mk n f r t).rows = r := rfl

/-- C1, corrected: for a tree built programmatically (a fresh `NewCfgMem`
root followed by `EditEntry` calls) whose every edit uses clean tokens
(`editOk`: block, row and column names nonempty, free of `#` and newline
and not starting or ending with a blank; row names in addition free of
`::` and `+=` and not starting with `%`, `\x7b` or `\x7d`; column names
in addition free of `=` and `;`; values free of `#`, newline and `;` and
not starting or ending with a blank — they may be empty and may contain
`=`), writing it with `CfgWrite` and loading the file with `NewCfg` under
a fresh name yields a tree with the same set of block names, the same set
of row names per block, and equal column key/value pairs per row. The
unconditional original claim is refuted by the counterexample: a value
containing `;` comes back truncated. -/
theorem c1_clean_roundtrip_preserves_structure
    (edits : List (Bytes × Bytes × Bytes × Bytes))
    (he : ∀ e ∈ edits, editOk e = true)
    (name1 name2 path home : Bytes) (st : CfgState)
    (fs : Bytes → Option Bytes)
    (h2 : alFind? st.cfgs name2 = none)
    (hfs : fs (expandUser home path) =
      some (CfgWrite (applyEdits (CfgBlock.mk name1 [] [] []) edits)))
    (m : Nat) :
    ∃ loaded st2,
      NewCfg fs home
          (m + writeFuel (applyEdits (CfgBlock.mk name1 [] [] []) edits))
          st name2 path = .ok (loaded, st2) ∧
      (∀ b, (alFind? loaded.tbls b).isSome =
        (alFind? (applyEdits (CfgBlock.mk name1 [] [] []) edits).tbls b).isSome) ∧
      (∀ b lb tb, alFind? loaded.tbls b = some lb →
        alFind? (applyEdits (CfgBlock.mk name1 [] [] []) edits).tbls b = some tb →
        (∀ r, (alFind? lb.rows r).isSome = (alFind? tb.rows r).isSome) ∧
        (∀ r lr tr, alFind? lb.rows r = some lr →
          alFind? tb.rows r = some tr →
          ∀ c, alFind? lr.cols c = alFind? tr.cols c)) := by
  refine ⟨_, _, NewCfg_writeback fs home _
    (applyEdits_clean edits _ (TreeClean_empty name1 []) he)
    st name2 path h2 hfs m, ?_, ?_⟩
  · intro b
    rw [tbls_mk, alFind?_map_loadedBlock]
    cases alFind? (applyEdits (CfgBlock.mk name1 [] [] []) edits).tbls b <;> rfl
  · intro b lb tb hlb htb
    rw [tbls_mk] at hlb
    rw [alFind?_map_loadedBlock, htb, Option.map_some'] at hlb
    injection hlb with hlb
    subst hlb
    constructor
    · intro r
      rw [rows_mk, alFind?_map_loadedRow]
      cases alFind? tb.rows r <;> rfl
    · intro r lr tr hlr htr c
      rw [rows_mk] at hlr
      rw [alFind?_map_loadedRow, htr, Option.map_some'] at hlr
      injection hlr with hlr
      subst hlr
      rfl

/-- C1 counterexample to the unconditional round-trip: the tree holding
the single value `x;y` is written and reloaded with the value truncated
to `x`, because `;` is the column separator of the written format. -/
theorem c1_counterexample_semicolon_value_not_roundtripped :
    colOf c1tree "b".data "r".data "c".data = some "x;y".data ∧
    (NewCfg c1fs [] 20 ⟨[]⟩ "m".data "out".data).map
      (fun p => colOf p.1 "b".data "r".data "c".data) =
      .ok (some "x".data) :=
  ⟨rfl, rfl⟩

theorem c1_clean_roundtrip_preserves_structure_witness :
    (∀ e ∈ c1wedits, editOk e = true) ∧
    (∃ loaded st2,
      NewCfg c1wfs []
          (0 + writeFuel (applyEdits (CfgBlock.mk "m1".data [] [] []) c1wedits))
          ⟨[]⟩ "m2".data "out".data = .ok (loaded, st2) ∧
      (∀ b, (alFind? loaded.tbls b).isSome =
        (alFind? (applyEdits (CfgBlock.mk "m1".data [] [] []) c1wedits).tbls b).isSome) ∧
      (∀ b lb tb, alFind? loaded.tbls b = some lb →
        alFind? (applyEdits (CfgBlock.mk "m1".data [] [] []) c1wedits).tbls b = some tb →
        (∀ r, (alFind? lb.rows r).isSome = (alFind? tb.rows r).isSome) ∧
        (∀ r lr tr, alFind? lb.rows r = some lr →
          alFind? tb.rows r = some tr →
          ∀ c, alFind? lr.cols c = alFind? tr.cols c))) :=
  ⟨by decide, c1_clean_roundtrip_preserves_structure c1wedits (by decide)
    "m1".data "m2".data "out".data [] ⟨[]⟩ c1wfs rfl rfl 0⟩
